import Mathlib

/-!
Verification of the Diophantine equality solver core (dioph_eq).

We shallowly embed the data model of the solver: sparse integer rows over
local variables (the E-matrix), certificate rows over host term columns
(the L-matrix), the per-row constants and statuses, the substitution map
k2s and the fresh-variable definitions.  The operations performed during
check (row creation, gcd-normalization, pivot elimination, the
fresh-variable step, recalculation, promotion of a row from F to S) are
embedded as functions on this state, and the entry invariant, the
substitution invariant, the tightener, the brancher and the iteration
budget are stated and settled against them.
-/

namespace DioSpec

/-- Sparse row: a list of (variable, coefficient) cells, as stored in a row
of static_matrix.  Cells with the same variable act additively. -/
abbrev Row := List (Nat × ℚ)

/-- Coefficient of variable j in a row (cells with equal variable add up). -/
def coeffOf (r : Row) (j : Nat) : ℚ :=
  r.foldr (fun p a => if p.1 = j then p.2 + a else a) 0

/-- Multiply every cell of a row by a scalar. -/
def scaleRow (a : ℚ) (r : Row) : Row :=
  r.map (fun p => (p.1, a * p.2))

/-- A term with a constant: the pair of a row and a rational constant,
mirroring term_o (a lar_term plus the constant m_c). -/
abbrev TC := Row × ℚ

/-- Sum of two terms-with-constant. -/
def tadd (x y : TC) : TC := (x.1 ++ y.1, x.2 + y.2)

/-- Scalar multiple of a term-with-constant. -/
def tscale (a : ℚ) (x : TC) : TC := (scaleRow a x.1, a * x.2)

/-- Semantic equality of two terms-with-constant: equal coefficient
functions and equal constants.  This is the equality tested by
term_o::operator==. -/
def termEq (x y : TC) : Prop :=
  (∀ v, coeffOf x.1 v = coeffOf y.1 v) ∧ x.2 = y.2

/-- Entry status, as in entry_status {F, S, NO_S_NO_F}. -/
inductive EStatus
  | F
  | S
  | NoSNoF
deriving DecidableEq

/-- The host solver data consumed by the core: for each host term column
its term (list of monomials over host columns, the implicit defining
column excluded), and for each host column whether it is fixed and at
which value.  The host is constant during one check. -/
structure Host where
  termOf : Nat → Row
  fixed : Nat → Bool
  fixedVal : Nat → ℚ

/-- State of the solver core: the parallel arrays of E-rows, L-rows,
constants and statuses (sharing the row index space), the number of local
columns, the local-to-external variable register, the substitution map
m_k2s and the fresh-variable definitions m_fresh_definitions. -/
structure DState where
  e : List Row
  l : List Row
  cs : List ℚ
  st : List EStatus
  next : Nat
  ext : Nat → Option Nat
  k2s : Nat → Option Nat
  fdef : Nat → Option (Nat × Nat)

/-- Modelled from the spec: lar_term::ext_coeffs is not under src; per the
spec a host term with column j stands for the equation term(j) − j = 0, so
its external coefficient list is the term's monomials together with the
cell (j, −1). -/
def extCoeffs (host : Host) (j : Nat) : Row :=
  host.termOf j ++ [(j, -1)]

/-- Expansion of a local variable into host columns: a mapped local is the
corresponding host unit column; a fresh local is expanded through its
defining row (the row of m_fresh_definitions, its −1·xt cell removed),
as performed by remove_fresh_vars.  Recursion is by explicit fuel; fresh
definitions only mention smaller locals, so fuel j+1 suffices for
variable j. -/
def expandVar (s : DState) : Nat → Nat → TC
  | 0, _ => ([], 0)
  | f + 1, j =>
    match s.ext j with
    | some v => ([(v, 1)], 0)
    | none =>
      match s.fdef j with
      | some rh =>
        ((s.e.getD rh.1 []).filter (fun p => p.1 ≠ j)).foldr
          (fun p acc => tadd (tscale p.2 (expandVar s f p.1)) acc)
          ([], s.cs.getD rh.1 0)
      | none => ([], 0)

/-- Expansion of a whole row of local variables into host columns. -/
def expandRow (s : DState) (f : Nat) (r : Row) : TC :=
  r.foldr (fun p acc => tadd (tscale p.2 (expandVar s f p.1)) acc) ([], 0)

/-- Left-hand side of the entry invariant for row i:
term_to_lar_solver(remove_fresh_vars(get_term_from_entry(i))), that is,
the E-row translated to host columns with fresh locals expanded, plus the
constant c_i. -/
def lhsEntry (s : DState) (i : Nat) : TC :=
  tadd (expandRow s s.next (s.e.getD i [])) ([], s.cs.getD i 0)

/-- Opening of an L-row through the host term definitions, as in open_ml:
each cell (k, a) contributes a·(term(k) − k). -/
def openMl (host : Host) (l : Row) : Row :=
  l.foldr (fun p acc => scaleRow p.2 (extCoeffs host p.1) ++ acc) []

/-- Substitution of the currently fixed host columns by their values, as
in fix_vars: fixed cells move into the constant. -/
def fix_vars (host : Host) (r : Row) : TC :=
  r.foldr
    (fun p acc =>
      if host.fixed p.1 then (acc.1, acc.2 + p.2 * host.fixedVal p.1)
      else (p :: acc.1, acc.2))
    ([], 0)

/-- Right-hand side of the entry invariant for row i:
fix_vars(open_ml(L-row i)). -/
def rhsEntry (host : Host) (s : DState) (i : Nat) : TC :=
  fix_vars host (openMl host (s.l.getD i []))

/-- The entry invariant of row i, as checked by entry_invariant(ei). -/
def entry_invariant (host : Host) (s : DState) (i : Nat) : Prop :=
  termEq (lhsEntry s i) (rhsEntry host s i)

/-- Well-formedness of the state: the four parallel arrays agree in
length, rows only mention allocated locals, the register maps only
allocated locals, fresh definitions are in range, mention a status
NO_S_NO_F row whose other variables are strictly smaller than the fresh
variable, and the substitution map is in range. -/
structure DWF (s : DState) : Prop where
  len_l : s.l.length = s.e.length
  len_c : s.cs.length = s.e.length
  len_st : s.st.length = s.e.length
  varsBound : ∀ r ∈ s.e, ∀ p ∈ r, p.1 < s.next
  extDom : ∀ j, s.next ≤ j → s.ext j = none
  fdefRange : ∀ j rh, s.fdef j = some rh → rh.1 < s.e.length
  fdefFresh : ∀ j rh, s.fdef j = some rh → s.ext j = none
  fdefBelow : ∀ j rh, s.fdef j = some rh →
    ∀ p ∈ s.e.getD rh.1 [], p.1 ≠ j → p.1 < j
  fdefStatus : ∀ j rh, s.fdef j = some rh →
    s.st.getD rh.1 EStatus.NoSNoF = EStatus.NoSNoF
  k2sRange : ∀ k i, s.k2s k = some i → i < s.e.length

/-- Construction of a new E-row from the external coefficient cells of a
term, as in fill_entry: fixed columns are folded into the constant, the
others are mapped to their locals. -/
def fillERow (host : Host) (loc : Nat → Nat) (cells : Row) : TC :=
  cells.foldr
    (fun p acc =>
      if host.fixed p.1 then (acc.1, acc.2 + p.2 * host.fixedVal p.1)
      else ((loc p.1, p.2) :: acc.1, acc.2))
    ([], 0)

/-- Row creation, as in fill_entry: a new row with status F is appended;
its L-row is the unit certificate 1·tj, its E-row and constant come from
the term's external coefficients with fixed columns folded into the
constant. -/
def fill_entry (host : Host) (s : DState) (tj : Nat) (loc : Nat → Nat) :
    DState :=
  let t := fillERow host loc (extCoeffs host tj)
  { e := s.e ++ [t.1]
    l := s.l ++ [[(tj, 1)]]
    cs := s.cs ++ [t.2]
    st := s.st ++ [EStatus.F]
    next := s.next
    ext := s.ext
    k2s := s.k2s
    fdef := s.fdef }

/-- One step of the gcd accumulation of gcd_of_coeffs. -/
def gcdStep (g b : ℚ) : ℚ :=
  if g = 0 then |b| else ((Int.gcd g.num b.num : ℤ) : ℚ)

/-- Loop of gcd_of_coeffs, with the early break once the gcd reaches 1. -/
def gcdGo : ℚ → Row → ℚ
  | g, [] => g
  | g, p :: rest =>
    let g' := gcdStep g p.2
    if g' = 1 then g' else gcdGo g' rest

/-- Gcd of the absolute values of the coefficients of a row, as computed
by gcd_of_coeffs (coefficients are integral by the invariant). -/
def gcd_of_coeffs (r : Row) : ℚ := gcdGo 0 r

/-- The pending cut published through lia.get_term(), lia.offset() and
lia.is_upper() by prepare_lia_branch_report. -/
structure Cut where
  term : Row
  offset : ℤ
  isUpper : Bool
deriving DecidableEq

/-- Result of normalize_e_by_gcd on one row: the (possibly divided) E-row,
L-row and constant, the success flag, and the cut prepared in the
branch-reporting conflict case. -/
structure NormResult where
  e : Row
  l : Row
  c : ℚ
  ok : Bool
  cut : Option Cut
deriving DecidableEq

/-- Test for a fresh variable in a row, as in has_fresh_var. -/
def has_fresh_var (ext : Nat → Option Nat) (r : Row) : Bool :=
  r.any (fun p => (ext p.1).isNone)

/-- The cut built by prepare_lia_branch_report: coefficients E[i][j]/g over
the external counterparts of the row's variables, offset ⌊−c/g⌋, upper
bound flag set. -/
def prepare_lia_branch_report (ext : Nat → Option Nat) (e : Row)
    (g cg : ℚ) : Cut :=
  ⟨e.map (fun p => ((ext p.1).getD 0, p.2 / g)), ⌊-cg⌋, true⟩

/-- One row of normalize_e_by_gcd: gcd 0 or 1 is a no-op success; a
non-trivial gcd divides the E-row, the L-row and the constant when the
constant divides, and otherwise fails, preparing a cut when the
cut-from-proof period has elapsed and the row has no fresh variable. -/
def normalize_e_by_gcd (ext : Nat → Option Nat) (periodOK : Bool)
    (e l : Row) (c : ℚ) : NormResult :=
  let g := gcd_of_coeffs e
  if g = 0 ∨ g = 1 then ⟨e, l, c, true, none⟩
  else
    let cg := c / g
    if cg.den = 1 then
      ⟨e.map (fun p => (p.1, p.2 / g)), l.map (fun p => (p.1, p.2 / g)),
        cg, true, none⟩
    else if periodOK && !has_fresh_var ext e then
      ⟨e, l, c, false, some (prepare_lia_branch_report ext e g cg)⟩
    else ⟨e, l, c, false, none⟩

/-- Normalization of row i inside a state; the state is written back only
in the success case, exactly as normalize_e_by_gcd mutates the matrices
only after the integrality test succeeds. -/
def normalizeRow (periodOK : Bool) (s : DState) (i : Nat) :
    DState × Bool × Option Cut :=
  let r := normalize_e_by_gcd s.ext periodOK (s.e.getD i [])
    (s.l.getD i []) (s.cs.getD i 0)
  if r.ok then
    ({ s with e := s.e.set i r.e, l := s.l.set i r.l, cs := s.cs.set i r.c },
      true, none)
  else (s, false, r.cut)

/-- One pivot application of eliminate_var_in_f: row i receives
row_i − σ·coeff·row_ei in E and L, and c_i − σ·coeff·c_ei, where coeff is
the coefficient of j in E-row i and σ = ±1 is the coefficient of j in the
pivot E-row ei.  The E update is represented additively; its coefficient
at j cancels to zero. -/
def pivotOne (s : DState) (ei i j : Nat) (σ : ℚ) : DState :=
  let coeff := coeffOf (s.e.getD i []) j
  { s with
    e := s.e.set i ((s.e.getD i []) ++ scaleRow (-σ * coeff) (s.e.getD ei []))
    l := s.l.set i ((s.l.getD i []) ++ scaleRow (-σ * coeff) (s.l.getD ei []))
    cs := s.cs.set i ((s.cs.getD i 0) - σ * coeff * (s.cs.getD ei 0)) }

/-- List of the first n naturals mapped through f. -/
def tabulate {α : Type} (n : Nat) (f : Nat → α) : List α :=
  (List.range n).map f

/-- Elimination of variable j from every other F-row using row ei as the
pivot, as in eliminate_var_in_f (rows whose status is not F are skipped). -/
def eliminate_var_in_f (s : DState) (ei j : Nat) (σ : ℚ) : DState :=
  { s with
    e := tabulate s.e.length (fun i =>
      if s.st.getD i EStatus.NoSNoF = EStatus.F ∧ i ≠ ei then
        (s.e.getD i []) ++
          scaleRow (-σ * coeffOf (s.e.getD i []) j) (s.e.getD ei [])
      else s.e.getD i [])
    l := tabulate s.e.length (fun i =>
      if s.st.getD i EStatus.NoSNoF = EStatus.F ∧ i ≠ ei then
        (s.l.getD i []) ++
          scaleRow (-σ * coeffOf (s.e.getD i []) j) (s.l.getD ei [])
      else s.l.getD i [])
    cs := tabulate s.e.length (fun i =>
      if s.st.getD i EStatus.NoSNoF = EStatus.F ∧ i ≠ ei then
        (s.cs.getD i 0) - σ * coeffOf (s.e.getD i []) j * (s.cs.getD ei 0)
      else s.cs.getD i 0) }

/-- Modelled from the spec: machine_div_rem of lp_utils is not under src;
the spec fixes truncated-toward-zero division, so the quotient is the
truncated division of the numerators (the arguments are integral). -/
def machine_div (b a : ℚ) : ℚ := ((b.num.tdiv a.num : ℤ) : ℚ)

/-- Remainder of the machine division, so that b = q·a + r holds. -/
def machine_rem (b a : ℚ) : ℚ := b - machine_div b a * a

/-- New E-row of the split row h after the fresh-variable step: the cell
a·xt followed by the nonzero residuals of the machine division of the
other coefficients by a. -/
def freshERowH (eh : Row) (k xt : Nat) (a : ℚ) : Row :=
  (xt, a) ::
    ((eh.filter (fun p => p.1 ≠ k)).map
      (fun p => (p.1, machine_rem p.2 a))).filter (fun p => p.2 ≠ 0)

/-- E-row of the fresh definition row: −1·xt + 1·k followed by the nonzero
quotients of the machine division of the other coefficients by a. -/
def freshERowFr (eh : Row) (k xt : Nat) (a : ℚ) : Row :=
  (xt, -1) :: (k, 1) ::
    ((eh.filter (fun p => p.1 ≠ k)).map
      (fun p => (p.1, machine_div p.2 a))).filter (fun p => p.2 ≠ 0)

/-- The fresh-variable step (step 7 of the paper) on F-row h with pivot
variable k of signed coefficient a: allocate the fresh local xt and the
fresh row fr, split E-row h and the constant by machine division by a,
leave L-row h unchanged, give fr an empty L-row, status NO_S_NO_F and
constant q_c, and record subst[k] = fr and fresh_def[xt] = (fr, h). -/
def fresh_var_step (s : DState) (h k : Nat) (a : ℚ) : DState :=
  let xt := s.next
  let fr := s.e.length
  let eh := s.e.getD h []
  let ch := s.cs.getD h 0
  { e := (s.e.set h (freshERowH eh k xt a)) ++ [freshERowFr eh k xt a]
    l := s.l ++ [[]]
    cs := (s.cs.set h (machine_rem ch a)) ++ [machine_div ch a]
    st := s.st ++ [EStatus.NoSNoF]
    next := s.next + 1
    ext := s.ext
    k2s := fun k' => if k' = k then some fr else s.k2s k'
    fdef := fun j => if j = xt then some (fr, h) else s.fdef j }

/-- The complete fresh-variable step as performed by the code: split the
row, then eliminate k from every other F-row with the fresh row as pivot
(its coefficient at k is +1). -/
def fresh_var_step_full (s : DState) (h k : Nat) (a : ℚ) : DState :=
  eliminate_var_in_f (fresh_var_step s h k a) s.e.length k 1

/-- Promotion of F-row h to S with pivot variable k, as in
move_entry_from_f_to_s: status h becomes S and subst[k] = h. -/
def move_entry_from_f_to_s (s : DState) (k h : Nat) : DState :=
  { s with
    st := s.st.set h EStatus.S
    k2s := fun k' => if k' = k then some h else s.k2s k' }

/-- Recalculation of row i from its L-row, as in recalculate_entry
followed by move_entry_from_s_to_f: the E-row and constant are rebuilt by
opening the L-row through the host terms and fixing the fixed columns,
the result is scaled by the denominator lcm d (applied to E, L and c),
the row returns to status F and substitution entries aimed at it are
dropped. -/
def recalculate_entry (host : Host) (s : DState) (i : Nat)
    (loc : Nat → Nat) (d : ℚ) : DState :=
  let t := fix_vars host (openMl host (s.l.getD i []))
  { s with
    e := s.e.set i (scaleRow d (t.1.map (fun p => (loc p.1, p.2))))
    l := s.l.set i (scaleRow d (s.l.getD i []))
    cs := s.cs.set i (d * t.2)
    st := s.st.set i EStatus.F
    k2s := fun k => if s.k2s k = some i then none else s.k2s k }

/-- The operations performed on the row store during check, with the
preconditions under which the code invokes them. -/
inductive Step (host : Host) (s : DState) : DState → Prop
  | create (tj : Nat) (loc : Nat → Nat)
      (hloc : ∀ p ∈ extCoeffs host tj, host.fixed p.1 = false →
        s.ext (loc p.1) = some p.1) :
      Step host s (fill_entry host s tj loc)
  | normalize (periodOK : Bool) (i : Nat)
      (hF : s.st.getD i EStatus.NoSNoF = EStatus.F) :
      Step host s (normalizeRow periodOK s i).1
  | eliminate (ei i j : Nat) (σ : ℚ) (hσ : σ = 1 ∨ σ = -1)
      (hpiv : coeffOf (s.e.getD ei []) j = σ)
      (hFi : s.st.getD i EStatus.NoSNoF = EStatus.F) (hne : i ≠ ei) :
      Step host s (pivotOne s ei i j σ)
  | promote (k h : Nat) (σ : ℚ) (hσ : σ = 1 ∨ σ = -1)
      (hF : s.st.getD h EStatus.NoSNoF = EStatus.F)
      (hpiv : coeffOf (s.e.getD h []) k = σ) (hh : h < s.e.length) :
      Step host s (move_entry_from_f_to_s s k h)
  | fresh (h k : Nat) (a : ℚ)
      (hF : s.st.getD h EStatus.NoSNoF = EStatus.F)
      (hk : k < s.next) (ha : coeffOf (s.e.getD h []) k = a) (ha0 : a ≠ 0)
      (hh : h < s.e.length) :
      Step host s (fresh_var_step s h k a)
  | recalc (i : Nat) (loc : Nat → Nat) (d : ℚ) (hd : d ≠ 0)
      (hi : i < s.e.length)
      (hnfd : ∀ j rh, s.fdef j = some rh → rh.1 ≠ i)
      (hloc : ∀ p ∈ (fix_vars host (openMl host (s.l.getD i []))).1,
        s.ext (loc p.1) = some p.1) :
      Step host s (recalculate_entry host s i loc d)

/-- The substitution invariant as the specification claims it: an entry
subst[k] = i points to a row whose E-row holds k with coefficient ±1 and
whose status is S, and no other S-row contains k. -/
def substClaimed (s : DState) : Prop :=
  ∀ k i, s.k2s k = some i →
    (coeffOf (s.e.getD i []) k = 1 ∨ coeffOf (s.e.getD i []) k = -1) ∧
    s.st.getD i EStatus.NoSNoF = EStatus.S ∧
    (∀ i', i' ≠ i → s.st.getD i' EStatus.NoSNoF = EStatus.S →
      coeffOf (s.e.getD i' []) k = 0)

/-- The substitution invariant as the code maintains it: an entry
subst[k] = i points to a row whose E-row holds k with coefficient ±1 and
whose status is S (a promoted row) or NO_S_NO_F (a fresh definition
row). -/
def substInvariant (s : DState) : Prop :=
  ∀ k i, s.k2s k = some i →
    (coeffOf (s.e.getD i []) k = 1 ∨ coeffOf (s.e.getD i []) k = -1) ∧
    (s.st.getD i EStatus.NoSNoF = EStatus.S ∨
      s.st.getD i EStatus.NoSNoF = EStatus.NoSNoF)

/-- The claim that every operation of check preserves substClaimed. -/
def substClaimPreserved : Prop :=
  ∀ (host : Host) (s s' : DState), DWF s → substClaimed s →
    Step host s s' → substClaimed s'

/-- Fixed host columns appearing in the opened L-row of row i: the columns
whose bound witnesses explain_fixed collects when explain walks the
conflict row. -/
def conflictExplanation (host : Host) (s : DState) (i : Nat) : List Nat :=
  ((openMl host (s.l.getD i [])).filter (fun p => host.fixed p.1)).map
    (fun p => p.1)

/-- An entry of the F list for the normalize pass: E-row, L-row and
constant. -/
abbrev Ent := Row × Row × ℚ

/-- The verdict values of check, as in lia_move. -/
inductive LiaMove
  | sat
  | branch
  | conflict
  | undef
deriving DecidableEq

/-- The pass of normalize_by_gcd over the F list in order: entries are
normalized until the first conflicting row; that row's position and its
prepared cut (if any) are recorded and the remaining entries are left
untouched. -/
def normalize_by_gcd (ext : Nat → Option Nat) (periodOK : Bool) :
    List Ent → List Ent × Option (Nat × Option Cut)
  | [] => ([], none)
  | ent :: rest =>
    let r := normalize_e_by_gcd ext periodOK ent.1 ent.2.1 ent.2.2
    if r.ok then
      let rec' := normalize_by_gcd ext periodOK rest
      ((r.e, r.l, r.c) :: rec'.1, rec'.2.map (fun p => (p.1 + 1, p.2)))
    else (ent :: rest, some (0, r.cut))

/-- The process_f loop: each round runs the normalize pass; a conflicting
pass returns branch together with the published cut when a cut was
prepared, and conflict otherwise; a clean pass applies one round of the
rewrite engine (abstracted as rw) and continues while F is non-empty. -/
def process_f (ext : Nat → Option Nat) (periodOK : Bool)
    (rw : List Ent → List Ent) : Nat → List Ent → LiaMove × Option Cut
  | 0, _ => (LiaMove.undef, none)
  | _ + 1, [] => (LiaMove.undef, none)
  | fuel + 1, ents =>
    match normalize_by_gcd ext periodOK ents with
    | (ents', none) => process_f ext periodOK rw fuel (rw ents')
    | (_, some (_, some cut)) => (LiaMove.branch, some cut)
    | (_, some (_, none)) => (LiaMove.conflict, none)

/-- The outcome that one iteration of the branch-and-bound loop hands back
to the loop driver: an early sat or conflict return, an undef return on
cancellation, or the decision to continue iterating. -/
inductive IterOutcome
  | sat
  | conflict
  | cancelled
  | next
deriving DecidableEq

/-- The loop of branching_on_undef: iterations are counted by the
pre-incremented m_number_of_iterations and run while the counter stays
below m_max_number_of_iterations; when the budget is exhausted the loop
returns undef.  The second component is the number of iterations
performed. -/
def branchingLoop (oracle : Nat → IterOutcome) (maxIter : Nat) (n : Nat) :
    LiaMove × Nat :=
  if n + 1 < maxIter then
    match oracle (n + 1) with
    | IterOutcome.sat => (LiaMove.sat, n + 1)
    | IterOutcome.conflict => (LiaMove.conflict, n + 1)
    | IterOutcome.cancelled => (LiaMove.undef, n + 1)
    | IterOutcome.next => branchingLoop oracle maxIter (n + 1)
  else (LiaMove.undef, n)
termination_by maxIter - n
decreasing_by omega

/-- branching_on_undef starts the loop with the iteration counter at 0. -/
def branching_on_undef (oracle : Nat → IterOutcome) (maxIter : Nat) :
    LiaMove × Nat :=
  branchingLoop oracle maxIter 0

/-- Initial value of m_max_number_of_iterations. -/
def m_max_number_of_iterations : Nat := 100

/-- Update of the iteration budget performed by check before returning
undef: halve, but never drop below 5. -/
def halveBudget (m : Nat) : Nat := max 5 (m / 2)

/-- The composition performed by check: the result of
process_f_and_tighten_terms is returned when it is branch or conflict;
otherwise the brancher result is returned when it is sat or conflict;
otherwise the budget is halved (floor 5) and undef is returned. -/
def check_move (r1 : LiaMove × Option Cut) (bu : LiaMove) (m : Nat) :
    (LiaMove × Option Cut) × Nat :=
  if r1.1 = LiaMove.branch ∨ r1.1 = LiaMove.conflict then (r1, m)
  else if bu = LiaMove.sat ∨ bu = LiaMove.conflict then ((bu, none), m)
  else ((LiaMove.undef, none), halveBudget m)

/-- Result of process_f_and_tighten_terms given the process_f verdict and
whether the tightener found a conflict. -/
def process_f_and_tighten (pf : LiaMove × Option Cut) (tconf : Bool) :
    LiaMove × Option Cut :=
  if pf.1 ≠ LiaMove.undef then pf
  else if tconf then (LiaMove.conflict, none) else (LiaMove.undef, none)

/-- Host feasibility answers observed after pushing a bound.  Modelled
from the spec: lp_status is not under src; the branch taken by the code
distinguishes statuses at least FEASIBLE, the CANCELLED status, and the
infeasible remainder. -/
inductive LpStatus
  | feasible
  | infeasible
  | cancelled
deriving DecidableEq

/-- Result of a tightening attempt: the bound pushed to the host (upper
flag and value), whether the host explanation was harvested, and whether
a conflict is reported. -/
structure TightenResult where
  pushed : Option (Bool × ℚ)
  harvested : Bool
  conflict : Bool
deriving DecidableEq

/-- tighten_bound_kind: push the bound g·⌊ub⌋ + m_c (upper) or
g·⌈ub⌉ + m_c (lower) to the host; if the host then reports
infeasibility, harvest its explanation and report the conflict. -/
def tighten_bound_kind (g mc ub : ℚ) (upper : Bool) (st : LpStatus) :
    TightenResult :=
  let bound := g * (if upper then (⌊ub⌋ : ℚ) else (⌈ub⌉ : ℚ)) + mc
  match st with
  | LpStatus.infeasible => ⟨some (upper, bound), true, true⟩
  | _ => ⟨some (upper, bound), false, false⟩

/-- tighten_bounds_for_non_trivial_gcd for one bound kind: when the host
has a bound rs of that kind and rs' = (rs − m_c)/g is not integral, the
bound is tightened through tighten_bound_kind; otherwise nothing
happens. -/
def tighten_bounds_for_non_trivial_gcd (g mc : ℚ) (jBound : Option ℚ)
    (upper : Bool) (st : LpStatus) : TightenResult :=
  match jBound with
  | none => ⟨none, false, false⟩
  | some rs =>
    let rs' := (rs - mc) / g
    if rs'.den = 1 then ⟨none, false, false⟩
    else tighten_bound_kind g mc rs' upper st

/-- A branch record, as in struct branch. -/
structure Branch where
  j : Nat
  rs : ℚ
  left : Bool
  fullyExplored : Bool
deriving DecidableEq

/-- Kind of a pushed variable bound. -/
inductive BoundKind
  | le
  | ge
deriving DecidableEq

/-- The bound pushed by add_var_bound_for_branch: x_j ≤ rs for a left
branch and x_j ≥ rs + 1 for a right branch. -/
def add_var_bound_for_branch (b : Branch) : Nat × BoundKind × ℚ :=
  if b.left then (b.j, BoundKind.le, b.rs)
  else (b.j, BoundKind.ge, b.rs + 1)

/-- The branching value chosen by create_branch: rs = ⌊value(j)⌋. -/
def create_branch_rs (v : ℚ) : ℚ := (⌊v⌋ : ℚ)

/-- The branch-side semantics the specification claims: a left branch
imposes x_j ≤ rs and a right branch imposes x_j ≥ rs. -/
def branchSideClaim : Prop :=
  ∀ b : Branch,
    add_var_bound_for_branch b =
      (b.j, (if b.left then BoundKind.le else BoundKind.ge), b.rs)

/-- Loop of find_minimal_abs_coeff after the first cell: the candidate is
replaced when the absolute value decreases or ties with a smaller
variable id, and the loop breaks as soon as the candidate absolute value
is 1. -/
def fmacGo : Row → ℚ → Nat → Int → ℚ × Nat × Int
  | [], ahk, k, sgn => (ahk, k, sgn)
  | p :: rest, ahk, k, sgn =>
    let t := |p.2|
    if t < ahk ∨ (t = ahk ∧ p.1 < k) then
      let sgn' : Int := if 0 < p.2 then 1 else -1
      if t = 1 then (t, p.1, sgn') else fmacGo rest t p.1 sgn'
    else fmacGo rest ahk k sgn

/-- find_minimal_abs_coeff over the cells of a row in storage order,
returning the minimal absolute coefficient, its variable and its sign. -/
def find_minimal_abs_coeff : Row → ℚ × Nat × Int
  | [] => (0, 0, 0)
  | p :: rest =>
    let t := |p.2|
    let sgn : Int := if 0 < p.2 then 1 else -1
    if t = 1 then (t, p.1, sgn) else fmacGo rest t p.1 sgn

/-- First cell of the row whose coefficient has absolute value 1. -/
def firstUnit (r : Row) : Option (Nat × ℚ) :=
  r.find? (fun p => |p.2| = 1)

/-- The pivot selection rule the specification claims: the chosen variable
attains the minimal absolute coefficient and, among all cells attaining
it, has the smallest variable id. -/
def pivotTiebreakClaim : Prop :=
  ∀ r : Row, r ≠ [] → (∀ p ∈ r, p.2 ≠ 0 ∧ p.2.den = 1) →
    (∀ p ∈ r, (find_minimal_abs_coeff r).1 ≤ |p.2|) ∧
    (∀ p ∈ r, |p.2| = (find_minimal_abs_coeff r).1 →
      (find_minimal_abs_coeff r).2.1 ≤ p.1)

/-- Host used by the concrete checks: no term monomials, every column
fixed at value 2. -/
def hostAllFixed : Host :=
  ⟨fun _ => [], fun _ => true, fun _ => 2⟩

/-- Host used by the concrete checks: no term monomials, nothing fixed. -/
def hostFree : Host :=
  ⟨fun _ => [], fun _ => false, fun _ => 0⟩

/-- The empty solver state. -/
def emptyState : DState :=
  ⟨[], [], [], [], 0, fun _ => none, fun _ => none, fun _ => none⟩

/-- A one-row state holding the F-row 3·x0 + 5·x1 + 7 = 0 with certificate
1·t0 and two mapped locals. -/
def oneRowState : DState :=
  ⟨[[(0, 3), (1, 5)]], [[(0, 1)]], [7], [EStatus.F], 2,
    fun j => if j < 2 then some j else none, fun _ => none, fun _ => none⟩

/-- A one-row state 2x + 4y + 3 = 0 whose gcd test fails: gcd 2 does not
divide the constant 3. -/
def gcdConflictState : DState :=
  ⟨[[(0, 2), (1, 4)]], [[(0, 1)]], [3], [EStatus.F], 2,
    fun j => if j < 2 then some j else none, fun _ => none, fun _ => none⟩

/-- A two-row state: row 0 is the S-row x0 + x1 with subst[x0] = 0, row 1
is the F-row x1; promoting row 1 with pivot x1 leaves x1 inside the older
S-row 0. -/
def twoRowState : DState :=
  ⟨[[(0, 1), (1, 1)], [(1, 1)]], [[(0, 1)], [(1, 1)]], [0, 0],
    [EStatus.S, EStatus.F], 2,
    fun j => if j < 2 then some j else none,
    fun k => if k = 0 then some 0 else none, fun _ => none⟩

theorem coeffOf_nil (j : Nat) : coeffOf [] j = 0 := rfl

theorem coeffOf_cons (p : Nat × ℚ) (r : Row) (j : Nat) :
    coeffOf (p :: r) j =
      if p.1 = j then p.2 + coeffOf r j else coeffOf r j := rfl

theorem coeffOf_append (r1 r2 : Row) (j : Nat) :
    coeffOf (r1 ++ r2) j = coeffOf r1 j + coeffOf r2 j := by
  induction r1 with
  | nil => simp [coeffOf_nil]
  | cons p r ih =>
    simp only [List.cons_append, coeffOf_cons, ih]
    split <;> ring

theorem coeffOf_scaleRow (a : ℚ) (r : Row) (j : Nat) :
    coeffOf (scaleRow a r) j = a * coeffOf r j := by
  induction r with
  | nil => simp [scaleRow, coeffOf_nil]
  | cons p r ih =>
    simp only [scaleRow, List.map_cons, coeffOf_cons] at ih ⊢
    rw [ih]
    split <;> ring

theorem coeffOf_filter_ne_zero (r : Row) (j : Nat) :
    coeffOf (r.filter (fun p => p.2 ≠ 0)) j = coeffOf r j := by
  induction r with
  | nil => rfl
  | cons p r ih =>
    by_cases hz : p.2 = 0
    · rw [List.filter_cons_of_neg (by simp [hz])]
      rw [ih, coeffOf_cons]
      split <;> simp [hz]
    · rw [List.filter_cons_of_pos (by simp [hz])]
      rw [coeffOf_cons, coeffOf_cons, ih]

theorem coeffOf_map_div (r : Row) (g : ℚ) (j : Nat) :
    coeffOf (r.map (fun p => (p.1, p.2 / g))) j = coeffOf r j / g := by
  induction r with
  | nil => simp [coeffOf_nil]
  | cons p r ih =>
    simp only [List.map_cons, coeffOf_cons, ih]
    split <;> ring

theorem coeffOf_eq_zero_of_not_mem (r : Row) (j : Nat)
    (h : ∀ p ∈ r, p.1 ≠ j) : coeffOf r j = 0 := by
  induction r with
  | nil => rfl
  | cons p r ih =>
    rw [coeffOf_cons]
    have hp := h p (by simp)
    simp only [hp, if_false]
    exact ih (fun q hq => h q (by simp [hq]))

theorem tadd_fst (x y : TC) : (tadd x y).1 = x.1 ++ y.1 := rfl

theorem tadd_snd (x y : TC) : (tadd x y).2 = x.2 + y.2 := rfl

theorem tscale_fst (a : ℚ) (x : TC) : (tscale a x).1 = scaleRow a x.1 := rfl

theorem tscale_snd (a : ℚ) (x : TC) : (tscale a x).2 = a * x.2 := rfl

theorem termEq_refl (x : TC) : termEq x x := ⟨fun _ => rfl, rfl⟩

theorem termEq_symm {x y : TC} (h : termEq x y) : termEq y x :=
  ⟨fun v => (h.1 v).symm, h.2.symm⟩

theorem termEq_trans {x y z : TC} (h1 : termEq x y) (h2 : termEq y z) :
    termEq x z :=
  ⟨fun v => (h1.1 v).trans (h2.1 v), h1.2.trans h2.2⟩

theorem termEq_tadd {x x' y y' : TC} (hx : termEq x x') (hy : termEq y y') :
    termEq (tadd x y) (tadd x' y') := by
  refine ⟨fun v => ?_, ?_⟩
  · simp [tadd_fst, coeffOf_append, hx.1 v, hy.1 v]
  · simp [tadd_snd, hx.2, hy.2]

theorem termEq_tscale (a : ℚ) {x x' : TC} (hx : termEq x x') :
    termEq (tscale a x) (tscale a x') := by
  refine ⟨fun v => ?_, ?_⟩
  · simp [tscale_fst, coeffOf_scaleRow, hx.1 v]
  · simp [tscale_snd, hx.2]

theorem tadd_assoc_eq (x y z : TC) : tadd (tadd x y) z = tadd x (tadd y z) := by
  simp [tadd, List.append_assoc, add_assoc]

theorem tadd_zero_eq (x : TC) : tadd x ([], 0) = x := by
  simp [tadd]

theorem termEq_tadd_comm (x y : TC) : termEq (tadd x y) (tadd y x) := by
  refine ⟨fun v => ?_, ?_⟩
  · simp [tadd_fst, coeffOf_append]; ring
  · simp [tadd_snd]; ring

theorem getD_append_left {α : Type} (l r : List α) (i : Nat) (d : α)
    (h : i < l.length) : (l ++ r).getD i d = l.getD i d := by
  simp only [List.getD_eq_getElem?_getD]
  rw [List.getElem?_append]
  simp [h]

theorem getD_append_len {α : Type} (l r : List α) (d : α) :
    (l ++ r).getD l.length d = r.getD 0 d := by
  simp [List.getD_eq_getElem?_getD, List.getElem?_append_right (Nat.le_refl _)]

theorem getD_set_self {α : Type} (l : List α) (i : Nat) (a d : α)
    (h : i < l.length) : (l.set i a).getD i d = a := by
  simp [List.getD_eq_getElem?_getD, List.getElem?_set_self', h]

theorem getD_set_ne {α : Type} (l : List α) (i j : Nat) (a d : α)
    (h : j ≠ i) : (l.set i a).getD j d = l.getD j d := by
  simp [List.getD_eq_getElem?_getD,
    List.getElem?_set_ne (fun hij => h hij.symm)]

theorem getD_tabulate_lt {α : Type} (n : Nat) (f : Nat → α) (i : Nat)
    (d : α) (h : i < n) : (tabulate n f).getD i d = f i := by
  simp [tabulate, List.getD_eq_getElem?_getD, List.getElem?_map,
    List.getElem?_range h]

theorem getD_tabulate_ge {α : Type} (n : Nat) (f : Nat → α) (i : Nat)
    (d : α) (h : n ≤ i) : (tabulate n f).getD i d = d := by
  have hnone : (List.range n)[i]? = none := by
    simp [List.getElem?_eq_none_iff]
    omega
  simp [tabulate, List.getD_eq_getElem?_getD, List.getElem?_map, hnone]

theorem tabulate_length {α : Type} (n : Nat) (f : Nat → α) :
    (tabulate n f).length = n := by
  simp [tabulate]

theorem getD_oob {α : Type} (l : List α) (i : Nat) (d : α)
    (h : l.length ≤ i) : l.getD i d = d := by
  have hnone : l[i]? = none := by
    simp [List.getElem?_eq_none_iff]
    omega
  simp [List.getD_eq_getElem?_getD, hnone]

theorem foldrCongr {α β : Type} {f g : α → β → β} {b : β} :
    ∀ {l : List α}, (∀ a ∈ l, ∀ y, f a y = g a y) →
      l.foldr f b = l.foldr g b := by
  intro l
  induction l with
  | nil => intro _; rfl
  | cons p l ih =>
    intro h
    simp only [List.foldr_cons]
    rw [ih (fun a ha y => h a (by simp [ha]) y), h p (by simp)]

theorem foldr_tadd_init {α : Type} (h : α → TC) (init : TC) (l : List α) :
    l.foldr (fun p acc => tadd (h p) acc) init =
      tadd (l.foldr (fun p acc => tadd (h p) acc) ([], 0)) init := by
  induction l with
  | nil => simp [tadd]
  | cons p l ih =>
    simp only [List.foldr_cons]
    rw [ih, ← tadd_assoc_eq]

theorem tscale_tadd_eq (a : ℚ) (x y : TC) :
    tscale a (tadd x y) = tadd (tscale a x) (tscale a y) := by
  simp [tscale, tadd, scaleRow, mul_add]

theorem tscale_tscale_eq (a b : ℚ) (x : TC) :
    tscale a (tscale b x) = tscale (a * b) x := by
  simp [tscale, scaleRow, List.map_map, mul_assoc]

theorem expandRow_nil (s : DState) (f : Nat) : expandRow s f [] = ([], 0) :=
  rfl

theorem expandRow_cons (s : DState) (f : Nat) (p : Nat × ℚ) (r : Row) :
    expandRow s f (p :: r) =
      tadd (tscale p.2 (expandVar s f p.1)) (expandRow s f r) := rfl

theorem expandRow_append (s : DState) (f : Nat) (r1 r2 : Row) :
    expandRow s f (r1 ++ r2) = tadd (expandRow s f r1) (expandRow s f r2) := by
  induction r1 with
  | nil => simp [expandRow_nil, tadd]
  | cons p r ih =>
    rw [List.cons_append, expandRow_cons, expandRow_cons, ih, tadd_assoc_eq]

theorem expandRow_scale (s : DState) (f : Nat) (a : ℚ) (r : Row) :
    expandRow s f (scaleRow a r) = tscale a (expandRow s f r) := by
  induction r with
  | nil => simp [expandRow_nil, scaleRow, tscale]
  | cons p r ih =>
    simp only [scaleRow, List.map_cons] at ih ⊢
    rw [expandRow_cons, expandRow_cons, ih, tscale_tadd_eq, tscale_tscale_eq]

theorem expandRow_congr (s s' : DState) (f f' : Nat) (r : Row)
    (h : ∀ p ∈ r, expandVar s f p.1 = expandVar s' f' p.1) :
    expandRow s f r = expandRow s' f' r := by
  induction r with
  | nil => rfl
  | cons p r ih =>
    rw [expandRow_cons, expandRow_cons, h p (by simp),
      ih (fun q hq => h q (by simp [hq]))]

theorem expandVar_succ_mapped (s : DState) (f j v : Nat)
    (hext : s.ext j = some v) : expandVar s (f + 1) j = ([(v, 1)], 0) := by
  rw [expandVar, hext]

theorem expandVar_succ_fresh (s : DState) (f j : Nat) (rh : Nat × Nat)
    (hext : s.ext j = none) (hfd : s.fdef j = some rh) :
    expandVar s (f + 1) j =
      tadd (expandRow s f ((s.e.getD rh.1 []).filter (fun p => p.1 ≠ j)))
        ([], s.cs.getD rh.1 0) := by
  rw [expandVar, hext, hfd]
  exact foldr_tadd_init _ _ _

theorem expandVar_stable (s s' : DState) (n : Nat)
    (hext : ∀ j, j < n → s'.ext j = s.ext j)
    (hfd : ∀ j, j < n → s'.fdef j = s.fdef j)
    (hrow : ∀ j rh, j < n → s.fdef j = some rh →
      s'.e.getD rh.1 [] = s.e.getD rh.1 [] ∧
      s'.cs.getD rh.1 0 = s.cs.getD rh.1 0)
    (hcells : ∀ j rh, j < n → s.fdef j = some rh →
      ∀ p ∈ s.e.getD rh.1 [], p.1 < n) :
    ∀ f j, j < n → expandVar s' f j = expandVar s f j := by
  intro f
  induction f with
  | zero => intro j _; rfl
  | succ f ih =>
    intro j hj
    rw [expandVar, expandVar, hext j hj]
    cases hse : s.ext j with
    | some v => rfl
    | none =>
      rw [hfd j hj]
      cases hsd : s.fdef j with
      | none => rfl
      | some rh =>
        dsimp only
        rw [(hrow j rh hj hsd).1, (hrow j rh hj hsd).2]
        refine foldrCongr ?_
        intro p hp y
        have hpn : p.1 < n :=
          hcells j rh hj hsd p (List.mem_of_mem_filter hp)
        rw [ih p.1 hpn]

theorem expandVar_fuel (s : DState)
    (hdb : ∀ j rh, s.fdef j = some rh →
      ∀ p ∈ s.e.getD rh.1 [], p.1 ≠ j → p.1 < j) :
    ∀ j f f', j < f → j < f' → expandVar s f j = expandVar s f' j := by
  intro j
  induction j using Nat.strong_induction_on with
  | _ j ih =>
    intro f f' hf hf'
    obtain ⟨f, rfl⟩ : ∃ g, f = g + 1 := ⟨f - 1, by omega⟩
    obtain ⟨f', rfl⟩ : ∃ g, f' = g + 1 := ⟨f' - 1, by omega⟩
    rw [expandVar, expandVar]
    cases hse : s.ext j with
    | some v => rfl
    | none =>
      cases hsd : s.fdef j with
      | none => rfl
      | some rh =>
        dsimp only
        refine foldrCongr ?_
        intro p hp y
        have hpj : p.1 ≠ j := by
          have := List.of_mem_filter hp
          simpa using this
        have hlt : p.1 < j :=
          hdb j rh hsd p (List.mem_of_mem_filter hp) hpj
        rw [ih p.1 hlt f f' (by omega) (by omega)]

theorem expandVar_stable_all (s s' : DState)
    (hext : s'.ext = s.ext) (hfd : s'.fdef = s.fdef)
    (hrow : ∀ j rh, s.fdef j = some rh →
      s'.e.getD rh.1 [] = s.e.getD rh.1 [] ∧
      s'.cs.getD rh.1 0 = s.cs.getD rh.1 0) :
    ∀ f j, expandVar s' f j = expandVar s f j := by
  intro f
  induction f with
  | zero => intro j; rfl
  | succ f ih =>
    intro j
    rw [expandVar, expandVar, hext]
    cases hse : s.ext j with
    | some v => rfl
    | none =>
      rw [hfd]
      cases hsd : s.fdef j with
      | none => rfl
      | some rh =>
        dsimp only
        rw [(hrow j rh hsd).1, (hrow j rh hsd).2]
        exact foldrCongr (fun p _ y => by rw [ih p.1])

theorem scaleRow_append (a : ℚ) (r1 r2 : Row) :
    scaleRow a (r1 ++ r2) = scaleRow a r1 ++ scaleRow a r2 := by
  simp [scaleRow]

theorem scaleRow_scaleRow (a b : ℚ) (r : Row) :
    scaleRow a (scaleRow b r) = scaleRow (a * b) r := by
  simp [scaleRow, List.map_map, mul_assoc]

theorem scaleRow_one (r : Row) : scaleRow 1 r = r := by
  simp [scaleRow]

theorem openMl_nil (host : Host) : openMl host [] = [] := rfl

theorem openMl_cons (host : Host) (p : Nat × ℚ) (l : Row) :
    openMl host (p :: l) =
      scaleRow p.2 (extCoeffs host p.1) ++ openMl host l := rfl

theorem openMl_append (host : Host) (l1 l2 : Row) :
    openMl host (l1 ++ l2) = openMl host l1 ++ openMl host l2 := by
  induction l1 with
  | nil => rfl
  | cons p l ih =>
    rw [List.cons_append, openMl_cons, openMl_cons, ih, List.append_assoc]

theorem openMl_scale (host : Host) (a : ℚ) (l : Row) :
    openMl host (scaleRow a l) = scaleRow a (openMl host l) := by
  induction l with
  | nil => rfl
  | cons p l ih =>
    have hstep : scaleRow a (p :: l) = (p.1, a * p.2) :: scaleRow a l := rfl
    rw [hstep, openMl_cons, openMl_cons, scaleRow_append, ih,
      scaleRow_scaleRow]

theorem fix_vars_nil (host : Host) : fix_vars host [] = ([], 0) := rfl

theorem fix_vars_cons (host : Host) (p : Nat × ℚ) (r : Row) :
    fix_vars host (p :: r) =
      if host.fixed p.1 then
        ((fix_vars host r).1, (fix_vars host r).2 + p.2 * host.fixedVal p.1)
      else (p :: (fix_vars host r).1, (fix_vars host r).2) := by
  rw [fix_vars, List.foldr_cons, ← fix_vars]

theorem fix_vars_fst_append (host : Host) (r1 r2 : Row) :
    (fix_vars host (r1 ++ r2)).1 =
      (fix_vars host r1).1 ++ (fix_vars host r2).1 := by
  induction r1 with
  | nil => rfl
  | cons p r ih =>
    rw [List.cons_append, fix_vars_cons, fix_vars_cons]
    split <;> simp [ih]

theorem fix_vars_snd_append (host : Host) (r1 r2 : Row) :
    (fix_vars host (r1 ++ r2)).2 =
      (fix_vars host r1).2 + (fix_vars host r2).2 := by
  induction r1 with
  | nil => simp [fix_vars_nil]
  | cons p r ih =>
    rw [List.cons_append, fix_vars_cons, fix_vars_cons]
    split <;> simp [ih] <;> ring

theorem fix_vars_fst_scale (host : Host) (a : ℚ) (r : Row) :
    (fix_vars host (scaleRow a r)).1 = scaleRow a (fix_vars host r).1 := by
  induction r with
  | nil => rfl
  | cons p r ih =>
    simp only [scaleRow, List.map_cons] at ih ⊢
    rw [fix_vars_cons, fix_vars_cons]
    split <;> simp [ih]

theorem fix_vars_snd_scale (host : Host) (a : ℚ) (r : Row) :
    (fix_vars host (scaleRow a r)).2 = a * (fix_vars host r).2 := by
  induction r with
  | nil => simp [scaleRow, fix_vars_nil]
  | cons p r ih =>
    simp only [scaleRow, List.map_cons] at ih ⊢
    rw [fix_vars_cons, fix_vars_cons]
    split <;> simp [ih] <;> ring

theorem entry_invariant_oob (host : Host) (s : DState) (i : Nat)
    (he : s.e.length ≤ i) (hl : s.l.length ≤ i) (hc : s.cs.length ≤ i) :
    entry_invariant host s i := by
  unfold entry_invariant lhsEntry rhsEntry
  rw [getD_oob _ _ _ he, getD_oob _ _ _ hl, getD_oob _ _ _ hc]
  exact ⟨fun v => by simp [expandRow_nil, openMl_nil, fix_vars_nil, tadd,
    coeffOf_nil], by simp [expandRow_nil, openMl_nil, fix_vars_nil, tadd]⟩

theorem entry_invariant_frame (host : Host) (s s' : DState) (i : Nat)
    (he : s'.e.getD i [] = s.e.getD i [])
    (hl : s'.l.getD i [] = s.l.getD i [])
    (hc : s'.cs.getD i 0 = s.cs.getD i 0)
    (hexp : ∀ p ∈ s.e.getD i [],
      expandVar s' s'.next p.1 = expandVar s s.next p.1)
    (hinv : entry_invariant host s i) : entry_invariant host s' i := by
  unfold entry_invariant lhsEntry rhsEntry at *
  rw [he, hl, hc, expandRow_congr s' s s'.next s.next _ hexp]
  exact hinv

theorem fillERow_eq (host : Host) (loc : Nat → Nat) (cells : Row) :
    fillERow host loc cells =
      ((fix_vars host cells).1.map (fun p => (loc p.1, p.2)),
        (fix_vars host cells).2) := by
  induction cells with
  | nil => rfl
  | cons p r ih =>
    rw [fix_vars_cons, fillERow, List.foldr_cons, ← fillERow, ih]
    split <;> simp

theorem expand_mapped_loc (s : DState) (f : Nat) (loc : Nat → Nat)
    (r : Row) (hmap : ∀ p ∈ r, s.ext (loc p.1) = some p.1)
    (hf : ∀ p ∈ r, loc p.1 < f) :
    termEq (expandRow s f (r.map (fun p => (loc p.1, p.2)))) (r, 0) := by
  induction r with
  | nil => exact termEq_refl _
  | cons p r ih =>
    obtain ⟨f', rfl⟩ : ∃ g, f = g + 1 := ⟨f - 1, by
      have := hf p (by simp)
      omega⟩
    rw [List.map_cons, expandRow_cons,
      expandVar_succ_mapped s f' (loc p.1) p.1 (hmap p (by simp))]
    have ihr := ih (fun q hq => hmap q (by simp [hq]))
      (fun q hq => hf q (by simp [hq]))
    refine ⟨fun v => ?_, ?_⟩
    · have h1 := ihr.1 v
      simp only [tadd_fst, tscale_fst, coeffOf_append, coeffOf_scaleRow] at h1 ⊢
      rw [h1, coeffOf_cons, coeffOf_cons]
      simp [coeffOf_nil]
      split <;> ring
    · have h2 := ihr.2
      simp only [tadd_snd, tscale_snd] at h2 ⊢
      rw [h2]
      ring

theorem mem_fix_vars_fst (host : Host) (r : Row) :
    ∀ p ∈ (fix_vars host r).1, host.fixed p.1 = false ∧ p ∈ r := by
  induction r with
  | nil => intro p hp; simp [fix_vars_nil] at hp
  | cons q r ih =>
    intro p hp
    rw [fix_vars_cons] at hp
    by_cases hq : host.fixed q.1 = true
    · rw [if_pos hq] at hp
      have := ih p hp
      exact ⟨this.1, by simp [this.2]⟩
    · rw [if_neg hq] at hp
      rcases List.mem_cons.mp hp with rfl | hp2
      · exact ⟨by simpa using hq, by simp⟩
      · have := ih p hp2
        exact ⟨this.1, by simp [this.2]⟩

theorem fill_entry_preserves (host : Host) (s : DState) (tj : Nat)
    (loc : Nat → Nat) (hwf : DWF s)
    (hloc : ∀ p ∈ extCoeffs host tj, host.fixed p.1 = false →
      s.ext (loc p.1) = some p.1)
    (hinv : ∀ i, entry_invariant host s i) :
    ∀ i, entry_invariant host (fill_entry host s tj loc) i := by
  intro i
  set s' := fill_entry host s tj loc with hs'
  have hframe : ∀ f j, expandVar s' f j = expandVar s f j := by
    refine expandVar_stable_all s s' rfl rfl ?_
    intro j rh hfd
    have hr := hwf.fdefRange j rh hfd
    constructor
    · exact getD_append_left _ _ _ _ hr
    · exact getD_append_left _ _ _ _ (by rw [hwf.len_c]; exact hr)
  rcases lt_trichotomy i s.e.length with hi | hi | hi
  · refine entry_invariant_frame host s s' i ?_ ?_ ?_ ?_ (hinv i)
    · exact getD_append_left _ _ _ _ hi
    · exact getD_append_left _ _ _ _ (by rw [hwf.len_l]; exact hi)
    · exact getD_append_left _ _ _ _ (by rw [hwf.len_c]; exact hi)
    · intro p _; exact hframe _ _
  · -- the new row
    subst hi
    have hfix := mem_fix_vars_fst host (extCoeffs host tj)
    have hmap : ∀ p ∈ (fix_vars host (extCoeffs host tj)).1,
        s.ext (loc p.1) = some p.1 := by
      intro p hp
      exact hloc p (hfix p hp).2 (hfix p hp).1
    have hfuel : ∀ p ∈ (fix_vars host (extCoeffs host tj)).1,
        loc p.1 < s.next := by
      intro p hp
      by_contra hge
      have := hwf.extDom (loc p.1) (by omega)
      rw [hmap p hp] at this
      exact Option.noConfusion this
    have he : s'.e.getD s.e.length [] =
        (fix_vars host (extCoeffs host tj)).1.map (fun p => (loc p.1, p.2)) := by
      show (s.e ++ _).getD s.e.length [] = _
      rw [getD_append_len]
      simp [fillERow_eq]
    have hl : s'.l.getD s.e.length [] = [(tj, 1)] := by
      show (s.l ++ _).getD s.e.length [] = _
      rw [← hwf.len_l, getD_append_len]
      rfl
    have hc : s'.cs.getD s.e.length 0 = (fix_vars host (extCoeffs host tj)).2 := by
      show (s.cs ++ _).getD s.e.length 0 = _
      rw [← hwf.len_c, getD_append_len]
      simp [fillERow_eq]
    unfold entry_invariant lhsEntry rhsEntry
    rw [he, hl, hc]
    have hexp := expand_mapped_loc s' s'.next loc
      (fix_vars host (extCoeffs host tj)).1
      (fun p hp => by rw [show s'.ext = s.ext from rfl]; exact hmap p hp)
      (fun p hp => by rw [show s'.next = s.next from rfl]; exact hfuel p hp)
    have hopen : openMl host [(tj, 1)] = scaleRow 1 (extCoeffs host tj) := by
      rw [openMl_cons, openMl_nil, List.append_nil]
    rw [hopen, scaleRow_one]
    refine ⟨fun v => ?_, ?_⟩
    · have h1 := hexp.1 v
      simp only [tadd_fst, coeffOf_append] at h1 ⊢
      rw [h1]
      simp [coeffOf_nil]
    · have h2 := hexp.2
      simp only [tadd_snd] at h2 ⊢
      rw [h2]
      ring
  · refine entry_invariant_oob host s' i ?_ ?_ ?_ <;>
      simp only [hs', fill_entry, List.length_append, List.length_cons,
        List.length_nil]
    · omega
    · rw [hwf.len_l]; omega
    · rw [hwf.len_c]; omega

theorem map_div_eq_scaleRow (g : ℚ) (r : Row) :
    r.map (fun p => (p.1, p.2 / g)) = scaleRow g⁻¹ r := by
  simp [scaleRow, div_eq_inv_mul]

theorem normalize_e_by_gcd_noop (ext : Nat → Option Nat) (pOK : Bool)
    (e l : Row) (c : ℚ)
    (hg : gcd_of_coeffs e = 0 ∨ gcd_of_coeffs e = 1) :
    normalize_e_by_gcd ext pOK e l c = ⟨e, l, c, true, none⟩ := by
  unfold normalize_e_by_gcd
  rw [if_pos hg]

theorem normalize_e_by_gcd_divide (ext : Nat → Option Nat) (pOK : Bool)
    (e l : Row) (c : ℚ)
    (hg : ¬(gcd_of_coeffs e = 0 ∨ gcd_of_coeffs e = 1))
    (hden : (c / gcd_of_coeffs e).den = 1) :
    normalize_e_by_gcd ext pOK e l c =
      ⟨e.map (fun p => (p.1, p.2 / gcd_of_coeffs e)),
        l.map (fun p => (p.1, p.2 / gcd_of_coeffs e)),
        c / gcd_of_coeffs e, true, none⟩ := by
  unfold normalize_e_by_gcd
  rw [if_neg hg]
  simp only []
  rw [if_pos hden]

theorem normalize_e_by_gcd_conflict (ext : Nat → Option Nat) (pOK : Bool)
    (e l : Row) (c : ℚ)
    (hg : ¬(gcd_of_coeffs e = 0 ∨ gcd_of_coeffs e = 1))
    (hden : (c / gcd_of_coeffs e).den ≠ 1) :
    normalize_e_by_gcd ext pOK e l c =
      ⟨e, l, c, false,
        if pOK && !has_fresh_var ext e then
          some (prepare_lia_branch_report ext e (gcd_of_coeffs e)
            (c / gcd_of_coeffs e))
        else none⟩ := by
  unfold normalize_e_by_gcd
  rw [if_neg hg]
  simp only []
  rw [if_neg hden]
  split <;> rfl

theorem normalizeRow_eq_of_ok (pOK : Bool) (s : DState) (i0 : Nat)
    (r : NormResult)
    (hr : normalize_e_by_gcd s.ext pOK (s.e.getD i0 []) (s.l.getD i0 [])
      (s.cs.getD i0 0) = r) (hok : r.ok = true) :
    (normalizeRow pOK s i0).1 =
      { s with
          e := s.e.set i0 r.e
          l := s.l.set i0 r.l
          cs := s.cs.set i0 r.c } := by
  unfold normalizeRow
  rw [hr]
  simp only [hok, if_true]

theorem normalizeRow_eq_of_fail (pOK : Bool) (s : DState) (i0 : Nat)
    (r : NormResult)
    (hr : normalize_e_by_gcd s.ext pOK (s.e.getD i0 []) (s.l.getD i0 [])
      (s.cs.getD i0 0) = r) (hok : r.ok = false) :
    (normalizeRow pOK s i0) = (s, false, r.cut) := by
  unfold normalizeRow
  rw [hr]
  simp only [hok, Bool.false_eq_true, if_false]

theorem set_rows_preserves (host : Host) (s : DState) (i0 : Nat)
    (α : ℚ) (hwf : DWF s)
    (hnfd : ∀ j rh, s.fdef j = some rh → rh.1 ≠ i0)
    (hinv : ∀ i, entry_invariant host s i) :
    ∀ i, entry_invariant host
      { s with
          e := s.e.set i0 (scaleRow α (s.e.getD i0 []))
          l := s.l.set i0 (scaleRow α (s.l.getD i0 []))
          cs := s.cs.set i0 (α * s.cs.getD i0 0) } i := by
  intro i
  set s' :=
    { s with
        e := s.e.set i0 (scaleRow α (s.e.getD i0 []))
        l := s.l.set i0 (scaleRow α (s.l.getD i0 []))
        cs := s.cs.set i0 (α * s.cs.getD i0 0) } with hs'
  have hframe : ∀ f j, expandVar s' f j = expandVar s f j := by
    refine expandVar_stable_all s s' rfl rfl ?_
    intro j rh hfd
    have hne := hnfd j rh hfd
    exact ⟨getD_set_ne _ _ _ _ _ hne, getD_set_ne _ _ _ _ _ hne⟩
  by_cases hi : i = i0
  · subst hi
    by_cases hlen : i < s.e.length
    · have he : s'.e.getD i [] = scaleRow α (s.e.getD i []) :=
        getD_set_self _ _ _ _ hlen
      have hl : s'.l.getD i [] = scaleRow α (s.l.getD i []) :=
        getD_set_self _ _ _ _ (by rw [hwf.len_l]; exact hlen)
      have hc : s'.cs.getD i 0 = α * s.cs.getD i 0 :=
        getD_set_self _ _ _ _ (by rw [hwf.len_c]; exact hlen)
      obtain ⟨h1, h2⟩ := hinv i
      unfold entry_invariant lhsEntry rhsEntry at *
      rw [he, hl, hc]
      have hrow : expandRow s' s'.next (scaleRow α (s.e.getD i [])) =
          tscale α (expandRow s s.next (s.e.getD i [])) := by
        rw [expandRow_scale,
          expandRow_congr s' s s'.next s.next _ (fun p _ => hframe _ _)]
      rw [hrow, openMl_scale]
      refine ⟨fun v => ?_, ?_⟩
      · have hv := h1 v
        simp only [tadd_fst, coeffOf_append, coeffOf_nil, add_zero] at hv
        simp only [tadd_fst, tscale_fst, coeffOf_append, coeffOf_scaleRow,
          coeffOf_nil, add_zero, fix_vars_fst_scale]
        rw [hv]
      · have hv := h2
        simp only [tadd_snd, tscale_snd, fix_vars_snd_scale] at hv ⊢
        rw [← hv]
        ring
    · have hset : ∀ {β : Type} (l : List β) (a : β), l.length = s.e.length →
          l.set i a = l := by
        intro β l a hlb
        exact List.set_eq_of_length_le (by omega)
      refine entry_invariant_frame host s s' i ?_ ?_ ?_
        (fun p _ => hframe _ _) (hinv i)
      · show (s.e.set i _).getD i [] = _
        rw [hset s.e _ rfl]
      · show (s.l.set i _).getD i [] = _
        rw [hset s.l _ hwf.len_l]
      · show (s.cs.set i _).getD i 0 = _
        rw [hset s.cs _ hwf.len_c]
  · refine entry_invariant_frame host s s' i ?_ ?_ ?_
      (fun p _ => hframe _ _) (hinv i)
    · exact getD_set_ne _ _ _ _ _ hi
    · exact getD_set_ne _ _ _ _ _ hi
    · exact getD_set_ne _ _ _ _ _ hi

theorem normalizeRow_preserves (host : Host) (periodOK : Bool) (s : DState)
    (i0 : Nat) (hwf : DWF s)
    (hF : s.st.getD i0 EStatus.NoSNoF = EStatus.F)
    (hinv : ∀ i, entry_invariant host s i) :
    ∀ i, entry_invariant host (normalizeRow periodOK s i0).1 i := by
  have hnfd : ∀ j rh, s.fdef j = some rh → rh.1 ≠ i0 := by
    intro j rh hfd heq
    have := hwf.fdefStatus j rh hfd
    rw [heq, hF] at this
    exact EStatus.noConfusion this
  by_cases hg : gcd_of_coeffs (s.e.getD i0 []) = 0 ∨
      gcd_of_coeffs (s.e.getD i0 []) = 1
  · rw [normalizeRow_eq_of_ok periodOK s i0 _
      (normalize_e_by_gcd_noop s.ext periodOK _ _ _ hg) rfl]
    have h := set_rows_preserves host s i0 1 hwf hnfd hinv
    rw [scaleRow_one, scaleRow_one, one_mul] at h
    exact h
  · by_cases hden : (s.cs.getD i0 0 / gcd_of_coeffs (s.e.getD i0 [])).den = 1
    · rw [normalizeRow_eq_of_ok periodOK s i0 _
        (normalize_e_by_gcd_divide s.ext periodOK _ _ _ hg hden) rfl]
      have h := set_rows_preserves host s i0
        (gcd_of_coeffs (s.e.getD i0 []))⁻¹ hwf hnfd hinv
      rw [← map_div_eq_scaleRow, ← map_div_eq_scaleRow, inv_mul_eq_div] at h
      exact h
    · rw [show (normalizeRow periodOK s i0).1 = s from congrArg Prod.fst
        (normalizeRow_eq_of_fail periodOK s i0 _
          (normalize_e_by_gcd_conflict s.ext periodOK _ _ _ hg hden) rfl)]
      exact hinv

theorem pivotOne_preserves (host : Host) (s : DState) (ei i0 j : Nat)
    (σ : ℚ) (hwf : DWF s)
    (hFi : s.st.getD i0 EStatus.NoSNoF = EStatus.F) (hne : i0 ≠ ei)
    (hinv : ∀ i, entry_invariant host s i) :
    ∀ i, entry_invariant host (pivotOne s ei i0 j σ) i := by
  intro i
  have hnfd : ∀ jv rh, s.fdef jv = some rh → rh.1 ≠ i0 := by
    intro jv rh hfd heq
    have := hwf.fdefStatus jv rh hfd
    rw [heq, hFi] at this
    exact EStatus.noConfusion this
  set β := -σ * coeffOf (s.e.getD i0 []) j with hβ
  set s' := pivotOne s ei i0 j σ with hs'
  have hframe : ∀ f jv, expandVar s' f jv = expandVar s f jv := by
    refine expandVar_stable_all s s' rfl rfl ?_
    intro jv rh hfd
    have hner := hnfd jv rh hfd
    exact ⟨getD_set_ne _ _ _ _ _ hner, getD_set_ne _ _ _ _ _ hner⟩
  by_cases hi : i = i0
  · subst hi
    by_cases hlen : i < s.e.length
    · have he : s'.e.getD i [] =
          (s.e.getD i []) ++ scaleRow β (s.e.getD ei []) :=
        getD_set_self _ _ _ _ hlen
      have hl : s'.l.getD i [] =
          (s.l.getD i []) ++ scaleRow β (s.l.getD ei []) :=
        getD_set_self _ _ _ _ (by rw [hwf.len_l]; exact hlen)
      have hc : s'.cs.getD i 0 =
          (s.cs.getD i 0) - σ * coeffOf (s.e.getD i []) j * (s.cs.getD ei 0) :=
        getD_set_self _ _ _ _ (by rw [hwf.len_c]; exact hlen)
      obtain ⟨h1, h2⟩ := hinv i
      obtain ⟨g1, g2⟩ := hinv ei
      unfold entry_invariant lhsEntry rhsEntry at *
      rw [he, hl, hc]
      have hexp : expandRow s' s'.next
          ((s.e.getD i []) ++ scaleRow β (s.e.getD ei [])) =
          tadd (expandRow s s.next (s.e.getD i []))
            (tscale β (expandRow s s.next (s.e.getD ei []))) := by
        rw [expandRow_append, expandRow_scale,
          expandRow_congr s' s s'.next s.next _ (fun p _ => hframe _ _),
          expandRow_congr s' s s'.next s.next _ (fun p _ => hframe _ _)]
      rw [hexp, openMl_append, openMl_scale]
      refine ⟨fun v => ?_, ?_⟩
      · have hv1 := h1 v
        have hv2 := g1 v
        simp only [tadd_fst, coeffOf_append, coeffOf_nil, add_zero] at hv1 hv2
        simp only [tadd_fst, tscale_fst, coeffOf_append, coeffOf_scaleRow,
          coeffOf_nil, add_zero, fix_vars_fst_append, fix_vars_fst_scale]
        rw [hv1, hv2]
      · simp only [tadd_snd, tscale_snd] at h2 g2 ⊢
        rw [fix_vars_snd_append, fix_vars_snd_scale, ← h2, ← g2, hβ]
        ring
    · have hset : ∀ {γ : Type} (l : List γ) (a : γ), l.length = s.e.length →
          l.set i a = l := by
        intro γ l a hlb
        exact List.set_eq_of_length_le (by omega)
      refine entry_invariant_frame host s s' i ?_ ?_ ?_
        (fun p _ => hframe _ _) (hinv i)
      · show (s.e.set i _).getD i [] = _
        rw [hset s.e _ rfl]
      · show (s.l.set i _).getD i [] = _
        rw [hset s.l _ hwf.len_l]
      · show (s.cs.set i _).getD i 0 = _
        rw [hset s.cs _ hwf.len_c]
  · refine entry_invariant_frame host s s' i ?_ ?_ ?_
      (fun p _ => hframe _ _) (hinv i)
    · exact getD_set_ne _ _ _ _ _ hi
    · exact getD_set_ne _ _ _ _ _ hi
    · exact getD_set_ne _ _ _ _ _ hi

theorem move_entry_from_f_to_s_preserves (host : Host) (s : DState)
    (k h : Nat) (hinv : ∀ i, entry_invariant host s i) :
    ∀ i, entry_invariant host (move_entry_from_f_to_s s k h) i := by
  intro i
  refine entry_invariant_frame host s (move_entry_from_f_to_s s k h) i
    rfl rfl rfl ?_ (hinv i)
  intro p _
  exact expandVar_stable_all s (move_entry_from_f_to_s s k h) rfl rfl
    (fun j rh _ => ⟨rfl, rfl⟩) _ _

theorem recalculate_entry_preserves (host : Host) (s : DState) (i0 : Nat)
    (loc : Nat → Nat) (d : ℚ) (hwf : DWF s) (hi0 : i0 < s.e.length)
    (hnfd : ∀ j rh, s.fdef j = some rh → rh.1 ≠ i0)
    (hloc : ∀ p ∈ (fix_vars host (openMl host (s.l.getD i0 []))).1,
      s.ext (loc p.1) = some p.1)
    (hinv : ∀ i, entry_invariant host s i) :
    ∀ i, entry_invariant host (recalculate_entry host s i0 loc d) i := by
  intro i
  set t := fix_vars host (openMl host (s.l.getD i0 [])) with ht
  set s' := recalculate_entry host s i0 loc d with hs'
  have hframe : ∀ f jv, expandVar s' f jv = expandVar s f jv := by
    refine expandVar_stable_all s s' rfl rfl ?_
    intro jv rh hfd
    have hner := hnfd jv rh hfd
    exact ⟨getD_set_ne _ _ _ _ _ hner, getD_set_ne _ _ _ _ _ hner⟩
  by_cases hi : i = i0
  · subst hi
    have he : s'.e.getD i [] =
        scaleRow d (t.1.map (fun p => (loc p.1, p.2))) :=
      getD_set_self _ _ _ _ hi0
    have hl : s'.l.getD i [] = scaleRow d (s.l.getD i []) :=
      getD_set_self _ _ _ _ (by rw [hwf.len_l]; exact hi0)
    have hc : s'.cs.getD i 0 = d * t.2 :=
      getD_set_self _ _ _ _ (by rw [hwf.len_c]; exact hi0)
    have hfuel : ∀ p ∈ t.1, loc p.1 < s.next := by
      intro p hp
      by_contra hge
      have := hwf.extDom (loc p.1) (by omega)
      rw [hloc p hp] at this
      exact Option.noConfusion this
    have hexp := expand_mapped_loc s' s'.next loc t.1
      (fun p hp => by rw [show s'.ext = s.ext from rfl]; exact hloc p hp)
      (fun p hp => by rw [show s'.next = s.next from rfl]; exact hfuel p hp)
    unfold entry_invariant lhsEntry rhsEntry
    rw [he, hl, hc, openMl_scale]
    rw [expandRow_scale]
    refine ⟨fun v => ?_, ?_⟩
    · have hv := hexp.1 v
      simp only [tadd_fst, tscale_fst, coeffOf_append, coeffOf_scaleRow,
        coeffOf_nil, add_zero, fix_vars_fst_scale] at hv ⊢
      rw [hv, ← ht]
    · have hv := hexp.2
      simp only [tadd_snd, tscale_snd, fix_vars_snd_scale] at hv ⊢
      rw [hv, ← ht]
      ring
  · refine entry_invariant_frame host s s' i ?_ ?_ ?_
      (fun p _ => hframe _ _) (hinv i)
    · exact getD_set_ne _ _ _ _ _ hi
    · exact getD_set_ne _ _ _ _ _ hi
    · exact getD_set_ne _ _ _ _ _ hi

theorem machine_div_rem_id (b a : ℚ) :
    machine_div b a * a + machine_rem b a = b := by
  unfold machine_rem
  ring

theorem getD_mem_of_lt {α : Type} (l : List α) (i : Nat) (d : α)
    (hlt : i < l.length) : l.getD i d ∈ l := by
  rw [List.getD_eq_getElem?_getD, List.getElem?_eq_getElem hlt]
  simp [List.getElem_mem]

theorem expandRow_filter_zero (s : DState) (f : Nat) (r : Row) :
    termEq (expandRow s f (r.filter (fun p => p.2 ≠ 0)))
      (expandRow s f r) := by
  induction r with
  | nil => exact termEq_refl _
  | cons p r ih =>
    by_cases hz : p.2 = 0
    · rw [List.filter_cons_of_neg (by simp [hz])]
      refine termEq_trans ih ?_
      rw [expandRow_cons]
      refine ⟨fun v => ?_, ?_⟩
      · simp [tadd_fst, tscale_fst, coeffOf_append, coeffOf_scaleRow, hz]
      · simp [tadd_snd, tscale_snd, hz]
    · rw [List.filter_cons_of_pos (by simp [hz]), expandRow_cons,
        expandRow_cons]
      exact termEq_tadd (termEq_refl _) ih

theorem expandRow_factor (s : DState) (f : Nat) (r : Row) (k : Nat) :
    termEq (expandRow s f r)
      (tadd (tscale (coeffOf r k) (expandVar s f k))
        (expandRow s f (r.filter (fun p => p.1 ≠ k)))) := by
  induction r with
  | nil =>
    refine ⟨fun v => ?_, ?_⟩
    · simp [expandRow_nil, tadd_fst, tscale_fst, coeffOf_append,
        coeffOf_scaleRow, coeffOf_nil]
    · simp [expandRow_nil, tadd_snd, tscale_snd, coeffOf_nil]
  | cons p r ih =>
    by_cases hk : p.1 = k
    · rw [List.filter_cons_of_neg (by simp [hk]), expandRow_cons]
      refine ⟨fun v => ?_, ?_⟩
      · have hv := ih.1 v
        simp only [tadd_fst, tscale_fst, coeffOf_append, coeffOf_scaleRow]
          at hv ⊢
        rw [coeffOf_cons, if_pos hk, hk]
        rw [hv]
        ring
      · have hv := ih.2
        simp only [tadd_snd, tscale_snd] at hv ⊢
        rw [coeffOf_cons, if_pos hk, hk] at *
        rw [hv]
        ring
    · rw [List.filter_cons_of_pos (by simp [hk]), expandRow_cons,
        expandRow_cons]
      refine ⟨fun v => ?_, ?_⟩
      · have hv := ih.1 v
        simp only [tadd_fst, tscale_fst, coeffOf_append, coeffOf_scaleRow]
          at hv ⊢
        rw [coeffOf_cons, if_neg hk]
        rw [hv]
        ring
      · have hv := ih.2
        simp only [tadd_snd, tscale_snd] at hv ⊢
        rw [coeffOf_cons, if_neg hk]
        rw [hv]
        ring

theorem expand_split (s : DState) (f : Nat) (a : ℚ) (L : Row) :
    termEq
      (tadd (expandRow s f (L.map (fun p => (p.1, machine_rem p.2 a))))
        (tscale a (expandRow s f (L.map (fun p => (p.1, machine_div p.2 a))))))
      (expandRow s f L) := by
  induction L with
  | nil =>
    refine ⟨fun v => ?_, ?_⟩
    · simp [expandRow_nil, tadd_fst, tscale_fst, coeffOf_append,
        coeffOf_scaleRow, coeffOf_nil]
    · simp [expandRow_nil, tadd_snd, tscale_snd]
  | cons p r ih =>
    rw [List.map_cons, List.map_cons, expandRow_cons, expandRow_cons,
      expandRow_cons]
    have hid := machine_div_rem_id p.2 a
    refine ⟨fun v => ?_, ?_⟩
    · have hv := ih.1 v
      simp only [tadd_fst, tscale_fst, coeffOf_append, coeffOf_scaleRow]
        at hv ⊢
      linear_combination hv + coeffOf (expandVar s f p.1).1 v * hid
    · have hv := ih.2
      simp only [tadd_snd, tscale_snd] at hv ⊢
      linear_combination hv + (expandVar s f p.1).2 * hid

theorem termEq_of_eq {x y : TC} (h : x = y) : termEq x y :=
  h ▸ termEq_refl x

theorem fresh_var_step_preserves_aux (host : Host) (s s' : DState)
    (h k : Nat) (a : ℚ) (hwf : DWF s)
    (hF : s.st.getD h EStatus.NoSNoF = EStatus.F)
    (hk : k < s.next) (ha : coeffOf (s.e.getD h []) k = a)
    (hh : h < s.e.length)
    (hs'e : s'.e = (s.e.set h (freshERowH (s.e.getD h []) k s.next a)) ++
      [freshERowFr (s.e.getD h []) k s.next a])
    (hs'l : s'.l = s.l ++ [[]])
    (hs'cs : s'.cs = (s.cs.set h (machine_rem (s.cs.getD h 0) a)) ++
      [machine_div (s.cs.getD h 0) a])
    (hnext : s'.next = s.next + 1)
    (hext : s'.ext = s.ext)
    (hfdef : s'.fdef = fun j =>
      if j = s.next then some (s.e.length, h) else s.fdef j)
    (hinv : ∀ i, entry_invariant host s i) :
    ∀ i, entry_invariant host s' i := by
  intro i
  have hnfdh : ∀ jv rh, s.fdef jv = some rh → rh.1 ≠ h := by
    intro jv rh hfd heq
    have := hwf.fdefStatus jv rh hfd
    rw [heq, hF] at this
    exact EStatus.noConfusion this
  have hstab : ∀ f j, j < s.next → expandVar s' f j = expandVar s f j := by
    intro f j hj
    refine expandVar_stable s s' s.next ?_ ?_ ?_ ?_ f j hj
    · intro j2 _
      rw [hext]
    · intro j2 hj2
      rw [hfdef]
      dsimp only
      rw [if_neg (by omega)]
    · intro j2 rh hj2 hfd
      have hner := hnfdh j2 rh hfd
      have hrlt := hwf.fdefRange j2 rh hfd
      have hle1 : rh.1 <
          (s.e.set h (freshERowH (s.e.getD h []) k s.next a)).length := by
        rw [List.length_set]; exact hrlt
      have hle2 : rh.1 <
          (s.cs.set h (machine_rem (s.cs.getD h 0) a)).length := by
        rw [List.length_set, hwf.len_c]; exact hrlt
      constructor
      · rw [hs'e, getD_append_left _ _ _ _ hle1,
          getD_set_ne _ _ _ _ _ hner]
      · rw [hs'cs, getD_append_left _ _ _ _ hle2,
          getD_set_ne _ _ _ _ _ hner]
    · intro j2 rh _ hfd p hp
      exact hwf.varsBound _ (getD_mem_of_lt _ _ _ (hwf.fdefRange j2 rh hfd))
        p hp
  have hagree : ∀ j f, j < s.next → j < f →
      expandVar s' f j = expandVar s s.next j := by
    intro j f hj hf
    rw [hstab f j hj]
    exact expandVar_fuel s hwf.fdefBelow j f s.next hf (by omega)
  have hehvars : ∀ p ∈ s.e.getD h [], p.1 < s.next :=
    fun p hp => hwf.varsBound _ (getD_mem_of_lt _ _ _ hh) p hp
  have hLsub : ∀ p ∈ (s.e.getD h []).filter (fun q => q.1 ≠ k),
      p.1 < s.next ∧ p.1 ≠ k := by
    intro p hp
    refine ⟨hehvars p (List.mem_of_mem_filter hp), ?_⟩
    have := List.of_mem_filter hp
    simpa using this
  have hQvars : ∀ p ∈ (((s.e.getD h []).filter (fun q => q.1 ≠ k)).map
      (fun p => (p.1, machine_div p.2 a))).filter (fun p => p.2 ≠ 0),
      p.1 < s.next := by
    intro p hp
    obtain ⟨q, hq, rfl⟩ := List.mem_map.mp (List.mem_of_mem_filter hp)
    exact (hLsub q hq).1
  have hZvars : ∀ p ∈ (((s.e.getD h []).filter (fun q => q.1 ≠ k)).map
      (fun p => (p.1, machine_rem p.2 a))).filter (fun p => p.2 ≠ 0),
      p.1 < s.next := by
    intro p hp
    obtain ⟨q, hq, rfl⟩ := List.mem_map.mp (List.mem_of_mem_filter hp)
    exact (hLsub q hq).1
  have hlen1 : h <
      (s.e.set h (freshERowH (s.e.getD h []) k s.next a)).length := by
    rw [List.length_set]; exact hh
  have hlen2 : h <
      (s.cs.set h (machine_rem (s.cs.getD h 0) a)).length := by
    rw [List.length_set, hwf.len_c]; exact hh
  have hlen3 : h < s.cs.length := by rw [hwf.len_c]; exact hh
  have hlen4 : h < s.l.length := by rw [hwf.len_l]; exact hh
  have hehget : s'.e.getD h [] = freshERowH (s.e.getD h []) k s.next a := by
    rw [hs'e, getD_append_left _ _ _ _ hlen1, getD_set_self _ _ _ _ hh]
  have hcget : s'.cs.getD h 0 = machine_rem (s.cs.getD h 0) a := by
    rw [hs'cs, getD_append_left _ _ _ _ hlen2, getD_set_self _ _ _ _ hlen3]
  have hlget : s'.l.getD h [] = s.l.getD h [] := by
    rw [hs'l, getD_append_left _ _ _ _ hlen4]
  have hfrE : s'.e.getD s.e.length [] =
      freshERowFr (s.e.getD h []) k s.next a := by
    rw [hs'e, show s.e.length =
      (s.e.set h (freshERowH (s.e.getD h []) k s.next a)).length from
      (List.length_set _ _ _).symm, getD_append_len]
    rfl
  have hfrC : s'.cs.getD s.e.length 0 = machine_div (s.cs.getD h 0) a := by
    rw [hs'cs, show s.e.length =
      (s.cs.set h (machine_rem (s.cs.getD h 0) a)).length from by
      rw [List.length_set, hwf.len_c], getD_append_len]
    rfl
  have hfrL : s'.l.getD s.e.length [] = [] := by
    rw [hs'l, show s.e.length = s.l.length from hwf.len_l.symm,
      getD_append_len]
    rfl
  have hextxt : s'.ext s.next = none := by
    rw [hext]
    exact hwf.extDom s.next (le_refl _)
  have hfdxt : s'.fdef s.next = some (s.e.length, h) := by
    rw [hfdef]
    dsimp only
    rw [if_pos rfl]
  have hfilterFr : (freshERowFr (s.e.getD h []) k s.next a).filter
      (fun p => p.1 ≠ s.next) =
      (k, 1) :: (((s.e.getD h []).filter (fun q => q.1 ≠ k)).map
        (fun p => (p.1, machine_div p.2 a))).filter (fun p => p.2 ≠ 0) := by
    unfold freshERowFr
    rw [List.filter_cons_of_neg (by simp),
      List.filter_cons_of_pos (by simp; omega)]
    congr 1
    refine List.filter_eq_self.mpr ?_
    intro p hp
    have := hQvars p hp
    simp only [decide_eq_true_eq, ne_eq]
    omega
  have hXk : expandVar s' s.next k = expandVar s s.next k :=
    hagree k s.next hk hk
  have hXk2 : expandVar s' s'.next k = expandVar s s.next k :=
    hagree k s'.next hk (by omega)
  have hxt : expandVar s' (s.next + 1) s.next =
      tadd (tadd (tscale 1 (expandVar s s.next k))
        (expandRow s' s.next
          ((((s.e.getD h []).filter (fun q => q.1 ≠ k)).map
            (fun p => (p.1, machine_div p.2 a))).filter
            (fun p => p.2 ≠ 0))))
        ([], machine_div (s.cs.getD h 0) a) := by
    rw [expandVar_succ_fresh s' s.next s.next (s.e.length, h) hextxt hfdxt]
    show tadd (expandRow s' s.next ((s'.e.getD s.e.length []).filter
      (fun p => p.1 ≠ s.next))) ([], s'.cs.getD s.e.length 0) = _
    rw [hfrE, hfrC, hfilterFr, expandRow_cons, hXk]
  have hQe2 : termEq (expandRow s' s.next
      ((((s.e.getD h []).filter (fun q => q.1 ≠ k)).map
        (fun p => (p.1, machine_div p.2 a))).filter (fun p => p.2 ≠ 0)))
      (expandRow s s.next (((s.e.getD h []).filter (fun q => q.1 ≠ k)).map
        (fun p => (p.1, machine_div p.2 a)))) := by
    refine termEq_trans (termEq_of_eq (expandRow_congr s' s s.next s.next _
      ?_)) (expandRow_filter_zero s s.next _)
    intro p hp
    exact hagree p.1 s.next (hQvars p hp) (hQvars p hp)
  have hQe3 : termEq (expandRow s' (s.next + 1)
      ((((s.e.getD h []).filter (fun q => q.1 ≠ k)).map
        (fun p => (p.1, machine_div p.2 a))).filter (fun p => p.2 ≠ 0)))
      (expandRow s s.next (((s.e.getD h []).filter (fun q => q.1 ≠ k)).map
        (fun p => (p.1, machine_div p.2 a)))) := by
    refine termEq_trans (termEq_of_eq (expandRow_congr s' s (s.next + 1)
      s.next _ ?_)) (expandRow_filter_zero s s.next _)
    intro p hp
    exact hagree p.1 (s.next + 1) (hQvars p hp) (by
      have := hQvars p hp
      omega)
  have hZe : termEq (expandRow s' (s.next + 1)
      ((((s.e.getD h []).filter (fun q => q.1 ≠ k)).map
        (fun p => (p.1, machine_rem p.2 a))).filter (fun p => p.2 ≠ 0)))
      (expandRow s s.next (((s.e.getD h []).filter (fun q => q.1 ≠ k)).map
        (fun p => (p.1, machine_rem p.2 a)))) := by
    refine termEq_trans (termEq_of_eq (expandRow_congr s' s (s.next + 1)
      s.next _ ?_)) (expandRow_filter_zero s s.next _)
    intro p hp
    exact hagree p.1 (s.next + 1) (hZvars p hp) (by
      have := hZvars p hp
      omega)
  have hsplit := expand_split s s.next a
    ((s.e.getD h []).filter (fun q => q.1 ≠ k))
  have hfac := expandRow_factor s s.next (s.e.getD h []) k
  rw [ha] at hfac
  have hc_id := machine_div_rem_id (s.cs.getD h 0) a
  by_cases hi : i = h
  · rw [hi]
    have hinvh := hinv h
    unfold entry_invariant lhsEntry rhsEntry at hinvh ⊢
    rw [hehget, hlget, hcget, hnext]
    refine termEq_trans ?_ hinvh
    unfold freshERowH
    rw [expandRow_cons, hxt]
    refine ⟨fun v => ?_, ?_⟩
    · have hZv := hZe.1 v
      have hQv := hQe2.1 v
      have hSv := hsplit.1 v
      have hFv := hfac.1 v
      simp only [tadd_fst, tscale_fst, coeffOf_append, coeffOf_scaleRow,
        coeffOf_nil, add_zero] at hZv hQv hSv hFv ⊢
      linear_combination a * hQv + hZv + hSv - hFv
    · have hZv := hZe.2
      have hQv := hQe2.2
      have hSv := hsplit.2
      have hFv := hfac.2
      simp only [tadd_snd, tscale_snd] at hZv hQv hSv hFv ⊢
      linear_combination a * hQv + hZv + hSv - hFv + hc_id
  · by_cases hifr : i = s.e.length
    · rw [hifr]
      unfold entry_invariant lhsEntry rhsEntry
      rw [hfrE, hfrL, hfrC, hnext]
      unfold freshERowFr
      rw [expandRow_cons, expandRow_cons, hxt]
      have hXk3 : expandVar s' (s.next + 1) k = expandVar s s.next k := by
        rw [← hnext]
        exact hXk2
      rw [hXk3]
      refine ⟨fun v => ?_, ?_⟩
      · have h2v := hQe2.1 v
        have h3v := hQe3.1 v
        simp only [tadd_fst, tscale_fst, coeffOf_append, coeffOf_scaleRow,
          coeffOf_nil, add_zero, openMl_nil, fix_vars_nil] at h2v h3v ⊢
        linear_combination h3v - h2v
      · have h2v := hQe2.2
        have h3v := hQe3.2
        simp only [tadd_snd, tscale_snd, openMl_nil, fix_vars_nil]
          at h2v h3v ⊢
        linear_combination h3v - h2v
    · rcases lt_trichotomy i s.e.length with hlt | heq | hgt
      · have hle1 : i <
            (s.e.set h (freshERowH (s.e.getD h []) k s.next a)).length := by
          rw [List.length_set]; exact hlt
        have hle2 : i <
            (s.cs.set h (machine_rem (s.cs.getD h 0) a)).length := by
          rw [List.length_set, hwf.len_c]; exact hlt
        have hle3 : i < s.l.length := by rw [hwf.len_l]; exact hlt
        refine entry_invariant_frame host s s' i ?_ ?_ ?_ ?_ (hinv i)
        · rw [hs'e, getD_append_left _ _ _ _ hle1,
            getD_set_ne _ _ _ _ _ hi]
        · rw [hs'l, getD_append_left _ _ _ _ hle3]
        · rw [hs'cs, getD_append_left _ _ _ _ hle2,
            getD_set_ne _ _ _ _ _ hi]
        · intro p hp
          have hpv : p.1 < s.next :=
            hwf.varsBound _ (getD_mem_of_lt _ _ _ hlt) p hp
          rw [hnext]
          exact hagree p.1 (s.next + 1) hpv (by omega)
      · exact absurd heq hifr
      · refine entry_invariant_oob host s' i ?_ ?_ ?_
        · rw [hs'e]
          simp only [List.length_append, List.length_set,
            List.length_cons, List.length_nil]
          omega
        · rw [hs'l]
          simp only [List.length_append, List.length_cons, List.length_nil]
          rw [hwf.len_l]
          omega
        · rw [hs'cs]
          simp only [List.length_append, List.length_set,
            List.length_cons, List.length_nil]
          rw [hwf.len_c]
          omega

theorem fresh_var_step_preserves (host : Host) (s : DState) (h k : Nat)
    (a : ℚ) (hwf : DWF s)
    (hF : s.st.getD h EStatus.NoSNoF = EStatus.F)
    (hk : k < s.next) (ha : coeffOf (s.e.getD h []) k = a)
    (hh : h < s.e.length) (hinv : ∀ i, entry_invariant host s i) :
    ∀ i, entry_invariant host (fresh_var_step s h k a) i :=
  fresh_var_step_preserves_aux host s (fresh_var_step s h k a) h k a hwf
    hF hk ha hh rfl rfl rfl rfl rfl rfl hinv

/-- C1: Entry invariant.  For every row i, translating E-row i back to host
columns (mapping local ids to host ids and expanding fresh locals through
their defining rows) plus the constant c_i equals the L[i]-weighted sum of
host term definitions with the currently fixed host variables replaced by
their values; every operation performed during check — row creation,
normalization, elimination, the fresh-variable step, recalculation (and
promotion from F to S) — preserves this equality for every row. -/
theorem C1_entry_invariant_preserved (host : Host) (s s' : DState)
    (hwf : DWF s) (hstep : Step host s s')
    (hinv : ∀ i, entry_invariant host s i) :
    ∀ i, entry_invariant host s' i := by
  cases hstep with
  | create tj loc hloc =>
    exact fill_entry_preserves host s tj loc hwf hloc hinv
  | normalize periodOK i0 hF =>
    exact normalizeRow_preserves host periodOK s i0 hwf hF hinv
  | eliminate ei i0 j σ hσ hpiv hFi hne =>
    exact pivotOne_preserves host s ei i0 j σ hwf hFi hne hinv
  | promote k h σ hσ hF hpiv hh =>
    exact move_entry_from_f_to_s_preserves host s k h hinv
  | fresh h k a hF hk ha ha0 hh =>
    exact fresh_var_step_preserves host s h k a hwf hF hk ha hh hinv
  | recalc i0 loc d hd hi hnfd hloc =>
    exact recalculate_entry_preserves host s i0 loc d hwf hi hnfd hloc hinv

/-- Witness for C1 at a concrete input: creating the entry of term column 0
in the empty state under a host with every column fixed yields a state
whose new row satisfies the entry invariant. -/
theorem C1_entry_invariant_preserved_witness :
    entry_invariant hostAllFixed
      (fill_entry hostAllFixed emptyState 0 (fun _ => 0)) 0 := by
  have hwf : DWF emptyState := by
    refine ⟨rfl, rfl, rfl, ?_, ?_, ?_, ?_, ?_, ?_, ?_⟩
    · intro r hr
      exact absurd hr (List.not_mem_nil r)
    · intro j _; rfl
    · intro j rh hfd; exact Option.noConfusion hfd
    · intro j rh hfd; exact Option.noConfusion hfd
    · intro j rh hfd; exact Option.noConfusion hfd
    · intro j rh hfd; exact Option.noConfusion hfd
    · intro k i hki; exact Option.noConfusion hki
  have hinv : ∀ i, entry_invariant hostAllFixed emptyState i := fun i =>
    entry_invariant_oob hostAllFixed emptyState i (Nat.zero_le i)
      (Nat.zero_le i) (Nat.zero_le i)
  exact C1_entry_invariant_preserved hostAllFixed emptyState _ hwf
    (Step.create 0 (fun _ => 0)
      (fun p _ hfix => Bool.noConfusion hfix)) hinv 0

theorem substInvariant_frame (s s' : DState)
    (hk2s : s'.k2s = s.k2s)
    (hrow : ∀ k i, s.k2s k = some i → s'.e.getD i [] = s.e.getD i [])
    (hst : ∀ k i, s.k2s k = some i →
      s'.st.getD i EStatus.NoSNoF = s.st.getD i EStatus.NoSNoF)
    (hsub : substInvariant s) : substInvariant s' := by
  intro k i hki
  rw [hk2s] at hki
  obtain ⟨hc, hstt⟩ := hsub k i hki
  exact ⟨by rw [hrow k i hki]; exact hc, by rw [hst k i hki]; exact hstt⟩

theorem coeffOf_freshERowFr_pivot (eh : Row) (k xt : Nat) (a : ℚ)
    (hxt : xt ≠ k) : coeffOf (freshERowFr eh k xt a) k = 1 := by
  unfold freshERowFr
  rw [coeffOf_cons, if_neg hxt, coeffOf_cons, if_pos rfl]
  have hz : coeffOf ((((eh.filter (fun q => q.1 ≠ k)).map
      (fun p => (p.1, machine_div p.2 a))).filter (fun p => p.2 ≠ 0))) k = 0 := by
    refine coeffOf_eq_zero_of_not_mem _ _ ?_
    intro p hp
    obtain ⟨q, hq, rfl⟩ := List.mem_map.mp (List.mem_of_mem_filter hp)
    have := List.of_mem_filter hq
    simpa using this
  rw [hz]
  simp

/-- C5 (amended): Substitution invariant.  For every k with subst[k] = i,
E-row i holds k with coefficient +1 or −1 and row i has status S (a
promoted row) or NO_S_NO_F (a fresh-variable definition row); every
operation of check preserves this.  The claimed stronger form — status
exactly S, and no other S-row containing k — does not hold: the
fresh-variable step registers subst[k] with a NO_S_NO_F row, and rows
already in S are never rewritten, so they may retain later pivots. -/
theorem C5_substitution_invariant (host : Host) (s s' : DState)
    (hwf : DWF s) (hsub : substInvariant s) (hstep : Step host s s') :
    substInvariant s' := by
  cases hstep with
  | create tj loc hloc =>
    refine substInvariant_frame s _ rfl ?_ ?_ hsub
    · intro k i hki
      have hlt := hwf.k2sRange k i hki
      exact getD_append_left _ _ _ _ hlt
    · intro k i hki
      have hlt := hwf.k2sRange k i hki
      exact getD_append_left _ _ _ _ (by rw [hwf.len_st]; exact hlt)
  | normalize periodOK i0 hF =>
    have hne : ∀ k i, s.k2s k = some i → i ≠ i0 := by
      intro k i hki heq
      rcases (hsub k i hki).2 with hst | hst <;>
        rw [heq, hF] at hst <;> exact EStatus.noConfusion hst
    by_cases hok : (normalize_e_by_gcd s.ext periodOK (s.e.getD i0 [])
        (s.l.getD i0 []) (s.cs.getD i0 0)).ok = true
    · rw [normalizeRow_eq_of_ok periodOK s i0 _ rfl hok]
      refine substInvariant_frame s _ rfl ?_ ?_ hsub
      · intro k i hki
        exact getD_set_ne _ _ _ _ _ (hne k i hki)
      · intro k i hki; rfl
    · rw [congrArg Prod.fst (normalizeRow_eq_of_fail periodOK s i0 _ rfl
        (Bool.not_eq_true _ ▸ hok))]
      exact hsub
  | eliminate ei i0 j σ hσ hpiv hFi hne0 =>
    have hne : ∀ k i, s.k2s k = some i → i ≠ i0 := by
      intro k i hki heq
      rcases (hsub k i hki).2 with hst | hst <;>
        rw [heq, hFi] at hst <;> exact EStatus.noConfusion hst
    refine substInvariant_frame s _ rfl ?_ ?_ hsub
    · intro k i hki
      exact getD_set_ne _ _ _ _ _ (hne k i hki)
    · intro k i hki; rfl
  | promote k0 h0 σ hσ hF hpiv hh =>
    intro k i hki
    have hki' : (if k = k0 then some h0 else s.k2s k) = some i := hki
    by_cases hkk : k = k0
    · rw [if_pos hkk] at hki'
      have hih : i = h0 := by
        injection hki' with hih
        exact hih.symm
      rw [hih]
      constructor
      · rw [hkk]
        show coeffOf (s.e.getD h0 []) k0 = 1 ∨
          coeffOf (s.e.getD h0 []) k0 = -1
        rcases hσ with h1 | h1
        · exact Or.inl (by rw [hpiv, h1])
        · exact Or.inr (by rw [hpiv, h1])
      · left
        show (s.st.set h0 EStatus.S).getD h0 EStatus.NoSNoF = EStatus.S
        exact getD_set_self _ _ _ _ (by rw [hwf.len_st]; exact hh)
    · rw [if_neg hkk] at hki'
      obtain ⟨hc, hstt⟩ := hsub k i hki'
      refine ⟨hc, ?_⟩
      have hne : i ≠ h0 := by
        intro heq
        rcases hstt with hst | hst <;>
          rw [heq, hF] at hst <;> exact EStatus.noConfusion hst
      show (s.st.set h0 EStatus.S).getD i EStatus.NoSNoF = _ ∨
        (s.st.set h0 EStatus.S).getD i EStatus.NoSNoF = _
      rw [getD_set_ne _ _ _ _ _ hne]
      exact hstt
  | fresh h0 k0 a hF hk ha ha0 hh =>
    intro k i hki
    have hki' : (if k = k0 then some s.e.length else s.k2s k) = some i := hki
    by_cases hkk : k = k0
    · rw [if_pos hkk] at hki'
      have hih : i = s.e.length := by
        injection hki' with hih
        exact hih.symm
      rw [hih, hkk]
      have hfr : (fresh_var_step s h0 k0 a).e.getD s.e.length [] =
          freshERowFr (s.e.getD h0 []) k0 s.next a := by
        show ((s.e.set h0 _) ++ _).getD s.e.length [] = _
        rw [show s.e.length = (s.e.set h0 (freshERowH (s.e.getD h0 []) k0
          s.next a)).length from (List.length_set _ _ _).symm,
          getD_append_len]
        rfl
      have hst : (fresh_var_step s h0 k0 a).st.getD s.e.length
          EStatus.NoSNoF = EStatus.NoSNoF := by
        show (s.st ++ [EStatus.NoSNoF]).getD s.e.length EStatus.NoSNoF = _
        rw [show s.e.length = s.st.length from hwf.len_st.symm,
          getD_append_len]
        rfl
      constructor
      · rw [hfr]
        exact Or.inl (coeffOf_freshERowFr_pivot _ _ _ _ (by omega))
      · exact Or.inr hst
    · rw [if_neg hkk] at hki'
      obtain ⟨hc, hstt⟩ := hsub k i hki'
      have hlt := hwf.k2sRange k i hki'
      have hne : i ≠ h0 := by
        intro heq
        rcases hstt with hst | hst <;>
          rw [heq, hF] at hst <;> exact EStatus.noConfusion hst
      constructor
      · show coeffOf (((s.e.set h0 _) ++ _).getD i []) k = 1 ∨
          coeffOf (((s.e.set h0 _) ++ _).getD i []) k = -1
        rw [getD_append_left _ _ _ _ (by rw [List.length_set]; exact hlt),
          getD_set_ne _ _ _ _ _ hne]
        exact hc
      · show (s.st ++ [EStatus.NoSNoF]).getD i EStatus.NoSNoF = _ ∨
          (s.st ++ [EStatus.NoSNoF]).getD i EStatus.NoSNoF = _
        rw [getD_append_left _ _ _ _ (by rw [hwf.len_st]; exact hlt)]
        exact hstt
  | recalc i0 loc d hd hi0 hnfd hloc =>
    intro k i hki
    have hki' : (if s.k2s k = some i0 then none else s.k2s k) = some i := hki
    by_cases hkk : s.k2s k = some i0
    · rw [if_pos hkk] at hki'
      exact Option.noConfusion hki'
    · rw [if_neg hkk] at hki'
      obtain ⟨hc, hstt⟩ := hsub k i hki'
      have hne : i ≠ i0 := by
        intro heq
        rw [heq] at hki'
        exact hkk hki'
      constructor
      · show coeffOf ((s.e.set i0 _).getD i []) k = 1 ∨
          coeffOf ((s.e.set i0 _).getD i []) k = -1
        rw [getD_set_ne _ _ _ _ _ hne]
        exact hc
      · show (s.st.set i0 EStatus.F).getD i EStatus.NoSNoF = _ ∨
          (s.st.set i0 EStatus.F).getD i EStatus.NoSNoF = _
        rw [getD_set_ne _ _ _ _ _ hne]
        exact hstt

/-- Counterexample for C5 as stated: a fresh-variable step on the single
F-row 3·x0 + 5·x1 + 7 registers subst[0] with the fresh definition row,
whose status is NO_S_NO_F and not S, so the claimed invariant is not
preserved by the operations of check. -/
theorem C5_counterexample :
    ¬ substClaimPreserved ∧
    (∃ (host : Host) (s s' : DState), DWF s ∧ substClaimed s ∧
      Step host s s' ∧
      ∃ k i i', s'.k2s k = some i ∧ i' ≠ i ∧
        s'.st.getD i' EStatus.NoSNoF = EStatus.S ∧
        coeffOf (s'.e.getD i' []) k ≠ 0) := by
  constructor
  · intro hcl
    have hwf : DWF oneRowState := by
      refine ⟨rfl, rfl, rfl, ?_, ?_, ?_, ?_, ?_, ?_, ?_⟩
      · decide
      · intro j hj
        have hj2 : 2 ≤ j := hj
        show (if j < 2 then some j else none) = none
        rw [if_neg (by omega)]
      · intro j rh hfd; exact Option.noConfusion hfd
      · intro j rh hfd; exact Option.noConfusion hfd
      · intro j rh hfd; exact Option.noConfusion hfd
      · intro j rh hfd; exact Option.noConfusion hfd
      · intro k i hki; exact Option.noConfusion hki
    have hsub : substClaimed oneRowState := by
      intro k i hki
      exact Option.noConfusion hki
    have hstep : Step hostFree oneRowState
        (fresh_var_step oneRowState 0 0 3) :=
      Step.fresh 0 0 3 rfl (by decide)
        (by show coeffOf [((0:Nat), (3:ℚ)), (1, 5)] 0 = 3
            simp [coeffOf_cons, coeffOf_nil])
        (by decide) (by decide)
    have h := hcl hostFree oneRowState _ hwf hsub hstep
    have h2 := (h 0 1 rfl).2.1
    exact absurd h2 (by decide)
  · have hwf2 : DWF twoRowState := by
      refine ⟨rfl, rfl, rfl, ?_, ?_, ?_, ?_, ?_, ?_, ?_⟩
      · decide
      · intro j hj
        have hj2 : 2 ≤ j := hj
        show (if j < 2 then some j else none) = none
        rw [if_neg (by omega)]
      · intro j rh hfd; exact Option.noConfusion hfd
      · intro j rh hfd; exact Option.noConfusion hfd
      · intro j rh hfd; exact Option.noConfusion hfd
      · intro j rh hfd; exact Option.noConfusion hfd
      · intro k i hki
        have hk2s : twoRowState.k2s k =
            if k = 0 then some 0 else none := rfl
        rw [hk2s] at hki
        by_cases hk : k = 0
        · rw [if_pos hk] at hki
          injection hki with hi
          rw [← hi]
          decide
        · rw [if_neg hk] at hki
          exact Option.noConfusion hki
    have hsub2 : substClaimed twoRowState := by
      intro k i hki
      have hk2s : twoRowState.k2s k =
          if k = 0 then some 0 else none := rfl
      rw [hk2s] at hki
      by_cases hk : k = 0
      · rw [if_pos hk] at hki
        injection hki with hi
        subst hk
        rw [← hi]
        refine ⟨?_, rfl, ?_⟩
        · left
          show coeffOf [((0 : Nat), (1 : ℚ)), (1, 1)] 0 = 1
          simp [coeffOf_cons, coeffOf_nil]
        · intro i' hne hstS
          cases i' with
          | zero => exact absurd rfl hne
          | succ n =>
            cases n with
            | zero => exact EStatus.noConfusion hstS
            | succ m => exact EStatus.noConfusion hstS
      · rw [if_neg hk] at hki
        exact Option.noConfusion hki
    have hstep2 : Step hostFree twoRowState
        (move_entry_from_f_to_s twoRowState 1 1) :=
      Step.promote 1 1 1 (Or.inl rfl) rfl
        (by show coeffOf [((1 : Nat), (1 : ℚ))] 1 = 1
            simp [coeffOf_cons, coeffOf_nil])
        (by decide)
    refine ⟨hostFree, twoRowState, move_entry_from_f_to_s twoRowState 1 1,
      hwf2, hsub2, hstep2, 1, 1, 0, rfl, by decide, rfl, ?_⟩
    show coeffOf [((0 : Nat), (1 : ℚ)), (1, 1)] 1 ≠ 0
    simp [coeffOf_cons, coeffOf_nil]

/-- Witness for C5 at a concrete input: after the fresh-variable step on
the row 3·x0 + 5·x1 + 7, the substitution entry for variable 0 points at
the fresh definition row, which holds variable 0 with coefficient ±1 and
has status S or NO_S_NO_F. -/
theorem C5_substitution_invariant_witness :
    (coeffOf ((fresh_var_step oneRowState 0 0 3).e.getD 1 []) 0 = 1 ∨
      coeffOf ((fresh_var_step oneRowState 0 0 3).e.getD 1 []) 0 = -1) ∧
    ((fresh_var_step oneRowState 0 0 3).st.getD 1 EStatus.NoSNoF =
        EStatus.S ∨
      (fresh_var_step oneRowState 0 0 3).st.getD 1 EStatus.NoSNoF =
        EStatus.NoSNoF) := by
  have hwf : DWF oneRowState := by
    refine ⟨rfl, rfl, rfl, ?_, ?_, ?_, ?_, ?_, ?_, ?_⟩
    · decide
    · intro j hj
      have hj2 : 2 ≤ j := hj
      show (if j < 2 then some j else none) = none
      rw [if_neg (by omega)]
    · intro j rh hfd; exact Option.noConfusion hfd
    · intro j rh hfd; exact Option.noConfusion hfd
    · intro j rh hfd; exact Option.noConfusion hfd
    · intro j rh hfd; exact Option.noConfusion hfd
    · intro k i hki; exact Option.noConfusion hki
  have hsub : substInvariant oneRowState := by
    intro k i hki
    exact Option.noConfusion hki
  exact C5_substitution_invariant hostFree oneRowState _ hwf hsub
    (Step.fresh 0 0 3 rfl (by decide)
      (by show coeffOf [((0:Nat), (3:ℚ)), (1, 5)] 0 = 3
          simp [coeffOf_cons, coeffOf_nil])
      (by decide) (by decide))
    0 1 rfl

theorem coeffOf_filter_var_ne (r : Row) (k j : Nat) (hjk : j ≠ k) :
    coeffOf (r.filter (fun p => p.1 ≠ k)) j = coeffOf r j := by
  induction r with
  | nil => rfl
  | cons p r ih =>
    by_cases hp : p.1 = k
    · rw [List.filter_cons_of_neg (by simp [hp]), ih, coeffOf_cons,
        if_neg (by omega)]
    · rw [List.filter_cons_of_pos (by simp [hp]), coeffOf_cons,
        coeffOf_cons, ih]

theorem coeffOf_map_f_of_nodup (r : Row) (f : ℚ → ℚ) (hf : f 0 = 0)
    (hnd : (r.map Prod.fst).Nodup) (j : Nat) :
    coeffOf (r.map (fun p => (p.1, f p.2))) j = f (coeffOf r j) := by
  induction r with
  | nil => simpa [coeffOf_nil] using hf.symm
  | cons p r ih =>
    rw [List.map_cons] at hnd
    have hnd' := List.Nodup.of_cons hnd
    have hnm : p.1 ∉ r.map Prod.fst := (List.nodup_cons.mp hnd).1
    rw [List.map_cons, coeffOf_cons, coeffOf_cons]
    by_cases hj : p.1 = j
    · rw [if_pos hj, if_pos hj]
      have hr0 : coeffOf r j = 0 := by
        refine coeffOf_eq_zero_of_not_mem _ _ ?_
        intro q hq hqj
        exact hnm (by rw [hj, ← hqj]; exact List.mem_map_of_mem Prod.fst hq)
      have hmr0 : coeffOf (r.map (fun p => (p.1, f p.2))) j = 0 := by
        rw [ih hnd', hr0, hf]
      rw [hmr0, hr0]
      simp
    · rw [if_neg hj, if_neg hj, ih hnd']

theorem machine_div_zero (a : ℚ) : machine_div 0 a = 0 := by
  unfold machine_div
  simp

theorem machine_rem_zero (a : ℚ) : machine_rem 0 a = 0 := by
  unfold machine_rem
  rw [machine_div_zero]
  ring

/-- C4: Fresh-variable step.  With a the signed pivot coefficient of
variable k in F-row h, the step splits every coefficient and the constant
of E-row h by machine division b = q·a + r, turns E-row h into the
residual plus a·xt for the fresh local xt, creates the fresh row fr with
E-row −1·xt + 1·k + Σ q_i·x_i, constant q_c, empty L-row and status
NO_S_NO_F, records subst[k] = fr and fresh_def[xt] = (fr, h), and then
eliminates k from every other F-row using fr as the pivot row. -/
theorem C4_fresh_var_step (s : DState) (h k : Nat) (a : ℚ)
    (hh : h < s.e.length) (hk : k < s.next)
    (hbound : ∀ p ∈ s.e.getD h [], p.1 < s.next)
    (hnodup : ((s.e.getD h []).map Prod.fst).Nodup)
    (hlst : s.st.length = s.e.length) (hlcs : s.cs.length = s.e.length)
    (hll : s.l.length = s.e.length)
    (ha : coeffOf (s.e.getD h []) k = a) (ha1 : 1 < |a|) :
    (∀ b : ℚ, b = machine_div b a * a + machine_rem b a)
  ∧ coeffOf ((fresh_var_step s h k a).e.getD h []) s.next = a
  ∧ (∀ j, j < s.next → j ≠ k →
      coeffOf ((fresh_var_step s h k a).e.getD h []) j =
        machine_rem (coeffOf (s.e.getD h []) j) a)
  ∧ coeffOf ((fresh_var_step s h k a).e.getD h []) k = 0
  ∧ (fresh_var_step s h k a).cs.getD h 0 = machine_rem (s.cs.getD h 0) a
  ∧ coeffOf ((fresh_var_step s h k a).e.getD s.e.length []) s.next = -1
  ∧ coeffOf ((fresh_var_step s h k a).e.getD s.e.length []) k = 1
  ∧ (∀ j, j < s.next → j ≠ k →
      coeffOf ((fresh_var_step s h k a).e.getD s.e.length []) j =
        machine_div (coeffOf (s.e.getD h []) j) a)
  ∧ (fresh_var_step s h k a).cs.getD s.e.length 0 =
      machine_div (s.cs.getD h 0) a
  ∧ (fresh_var_step s h k a).st.getD s.e.length EStatus.F = EStatus.NoSNoF
  ∧ (fresh_var_step s h k a).l.getD s.e.length [] = []
  ∧ (fresh_var_step s h k a).k2s k = some s.e.length
  ∧ (fresh_var_step s h k a).fdef s.next = some (s.e.length, h)
  ∧ (∀ i, i ≠ s.e.length →
      (fresh_var_step s h k a).st.getD i EStatus.NoSNoF = EStatus.F →
      coeffOf ((fresh_var_step_full s h k a).e.getD i []) k = 0) := by
  set eh := s.e.getD h [] with heh
  have hLnd : (((s.e.getD h []).filter (fun q => q.1 ≠ k)).map
      Prod.fst).Nodup := by
    refine List.Nodup.sublist ?_ hnodup
    exact List.Sublist.map Prod.fst (List.filter_sublist _)
  have hehget : (fresh_var_step s h k a).e.getD h [] =
      freshERowH (s.e.getD h []) k s.next a := by
    show ((s.e.set h _) ++ _).getD h [] = _
    rw [getD_append_left _ _ _ _ (by rw [List.length_set]; exact hh),
      getD_set_self _ _ _ _ hh]
  have hfrE : (fresh_var_step s h k a).e.getD s.e.length [] =
      freshERowFr (s.e.getD h []) k s.next a := by
    show ((s.e.set h _) ++ _).getD s.e.length [] = _
    rw [show s.e.length = (s.e.set h (freshERowH (s.e.getD h []) k s.next
      a)).length from (List.length_set _ _ _).symm, getD_append_len]
    rfl
  have hZno : ∀ p ∈ (((s.e.getD h []).filter (fun q => q.1 ≠ k)).map
      (fun p => (p.1, machine_rem p.2 a))).filter (fun p => p.2 ≠ 0),
      p.1 < s.next ∧ p.1 ≠ k := by
    intro p hp
    obtain ⟨q, hq, rfl⟩ := List.mem_map.mp (List.mem_of_mem_filter hp)
    refine ⟨hbound q (List.mem_of_mem_filter hq), ?_⟩
    have := List.of_mem_filter hq
    simpa using this
  have hQno : ∀ p ∈ (((s.e.getD h []).filter (fun q => q.1 ≠ k)).map
      (fun p => (p.1, machine_div p.2 a))).filter (fun p => p.2 ≠ 0),
      p.1 < s.next ∧ p.1 ≠ k := by
    intro p hp
    obtain ⟨q, hq, rfl⟩ := List.mem_map.mp (List.mem_of_mem_filter hp)
    refine ⟨hbound q (List.mem_of_mem_filter hq), ?_⟩
    have := List.of_mem_filter hq
    simpa using this
  refine ⟨?_, ?_, ?_, ?_, ?_, ?_, ?_, ?_, ?_, ?_, ?_, ?_, ?_, ?_⟩
  · intro b
    rw [machine_div_rem_id]
  · rw [hehget]
    unfold freshERowH
    rw [coeffOf_cons, if_pos rfl]
    have hz : coeffOf ((((s.e.getD h []).filter (fun q => q.1 ≠ k)).map
        (fun p => (p.1, machine_rem p.2 a))).filter (fun p => p.2 ≠ 0))
        s.next = 0 := by
      refine coeffOf_eq_zero_of_not_mem _ _ ?_
      intro p hp
      have := (hZno p hp).1
      omega
    rw [hz]
    simp
  · intro j hj hjk
    rw [hehget]
    unfold freshERowH
    rw [coeffOf_cons, if_neg (by omega), coeffOf_filter_ne_zero,
      coeffOf_map_f_of_nodup _ (fun b => machine_rem b a)
        (machine_rem_zero a) hLnd,
      coeffOf_filter_var_ne _ _ _ hjk]
  · rw [hehget]
    unfold freshERowH
    rw [coeffOf_cons, if_neg (by omega)]
    refine coeffOf_eq_zero_of_not_mem _ _ ?_
    intro p hp
    exact (hZno p hp).2
  · show ((s.cs.set h _) ++ _).getD h 0 = _
    rw [getD_append_left _ _ _ _ (by rw [List.length_set, hlcs]; exact hh),
      getD_set_self _ _ _ _ (by rw [hlcs]; exact hh)]
  · rw [hfrE]
    unfold freshERowFr
    rw [coeffOf_cons, if_pos rfl, coeffOf_cons, if_neg (by omega)]
    have hz : coeffOf ((((s.e.getD h []).filter (fun q => q.1 ≠ k)).map
        (fun p => (p.1, machine_div p.2 a))).filter (fun p => p.2 ≠ 0))
        s.next = 0 := by
      refine coeffOf_eq_zero_of_not_mem _ _ ?_
      intro p hp
      have := (hQno p hp).1
      omega
    rw [hz]
    simp
  · rw [hfrE]
    exact coeffOf_freshERowFr_pivot _ _ _ _ (by omega)
  · intro j hj hjk
    rw [hfrE]
    unfold freshERowFr
    rw [coeffOf_cons, if_neg (by omega), coeffOf_cons, if_neg (by omega),
      coeffOf_filter_ne_zero,
      coeffOf_map_f_of_nodup _ (fun b => machine_div b a)
        (machine_div_zero a) hLnd,
      coeffOf_filter_var_ne _ _ _ hjk]
  · show ((s.cs.set h _) ++ _).getD s.e.length 0 = _
    rw [show s.e.length = (s.cs.set h (machine_rem (s.cs.getD h 0)
      a)).length from by rw [List.length_set, hlcs], getD_append_len]
    rfl
  · show (s.st ++ [EStatus.NoSNoF]).getD s.e.length EStatus.F = _
    rw [show s.e.length = s.st.length from hlst.symm, getD_append_len]
    rfl
  · show (s.l ++ [[]]).getD s.e.length [] = _
    rw [show s.e.length = s.l.length from hll.symm, getD_append_len]
    rfl
  · show (if k = k then some s.e.length else s.k2s k) = some s.e.length
    rw [if_pos rfl]
  · show (if s.next = s.next then some (s.e.length, h) else
      s.fdef s.next) = some (s.e.length, h)
    rw [if_pos rfl]
  · intro i hne hstF
    have hilt : i < (fresh_var_step s h k a).e.length := by
      by_contra hge
      have hstlen : (fresh_var_step s h k a).st.length =
          (fresh_var_step s h k a).e.length := by
        show (s.st ++ [EStatus.NoSNoF]).length =
          ((s.e.set h _) ++ _).length
        simp [hlst]
      rw [getD_oob _ _ _ (by omega : (fresh_var_step s h k a).st.length ≤ i)]
        at hstF
      exact EStatus.noConfusion hstF
    show coeffOf ((eliminate_var_in_f (fresh_var_step s h k a)
      s.e.length k 1).e.getD i []) k = 0
    have hget : (eliminate_var_in_f (fresh_var_step s h k a)
        s.e.length k 1).e.getD i [] =
        ((fresh_var_step s h k a).e.getD i []) ++
          scaleRow (-1 * coeffOf ((fresh_var_step s h k a).e.getD i []) k)
            ((fresh_var_step s h k a).e.getD s.e.length []) := by
      show (tabulate (fresh_var_step s h k a).e.length _).getD i [] = _
      rw [getD_tabulate_lt _ _ _ _ hilt, if_pos ⟨hstF, hne⟩]
    rw [hget, coeffOf_append, coeffOf_scaleRow, hfrE,
      coeffOf_freshERowFr_pivot _ _ _ _ (by omega)]
    ring

theorem C4_fresh_var_step_witness :
    coeffOf ((fresh_var_step oneRowState 0 0 3).e.getD 0 []) 2 = 3 ∧
    coeffOf ((fresh_var_step oneRowState 0 0 3).e.getD 0 []) 1 = 2 ∧
    coeffOf ((fresh_var_step oneRowState 0 0 3).e.getD 0 []) 0 = 0 ∧
    (fresh_var_step oneRowState 0 0 3).cs.getD 0 0 = 1 ∧
    coeffOf ((fresh_var_step oneRowState 0 0 3).e.getD 1 []) 2 = -1 ∧
    coeffOf ((fresh_var_step oneRowState 0 0 3).e.getD 1 []) 0 = 1 ∧
    coeffOf ((fresh_var_step oneRowState 0 0 3).e.getD 1 []) 1 = 1 ∧
    (fresh_var_step oneRowState 0 0 3).cs.getD 1 0 = 2 ∧
    (fresh_var_step oneRowState 0 0 3).st.getD 1 EStatus.F =
      EStatus.NoSNoF ∧
    (fresh_var_step oneRowState 0 0 3).k2s 0 = some 1 ∧
    (fresh_var_step oneRowState 0 0 3).fdef 2 = some (1, 0) := by
  have hrow : oneRowState.e.getD 0 [] = [((0:Nat), (3:ℚ)), (1, 5)] := rfl
  have hc1 : coeffOf (oneRowState.e.getD 0 []) 1 = 5 := by
    rw [hrow]; simp [coeffOf_cons, coeffOf_nil]
  have hc0 : coeffOf (oneRowState.e.getD 0 []) 0 = 3 := by
    rw [hrow]; simp [coeffOf_cons, coeffOf_nil]
  have H := C4_fresh_var_step oneRowState 0 0 3 (by decide) (by decide)
    (by decide) (by decide) rfl rfl rfl hc0 (by decide)
  obtain ⟨_, Hxt, Hrem, Hk0, Hcsr, Hfrxt, Hfrk, Hdiv, Hcsd, Hst, _,
    Hk2s, Hfdef, _⟩ := H
  have hrem53 : machine_rem (5:ℚ) 3 = 2 := by
    unfold machine_rem machine_div
    rw [show Int.tdiv (5:ℚ).num (3:ℚ).num = 1 from by decide]
    norm_num
  have hdiv53 : machine_div (5:ℚ) 3 = 1 := by
    unfold machine_div
    rw [show Int.tdiv (5:ℚ).num (3:ℚ).num = 1 from by decide]
    norm_num
  have hrem73 : machine_rem (7:ℚ) 3 = 1 := by
    unfold machine_rem machine_div
    rw [show Int.tdiv (7:ℚ).num (3:ℚ).num = 2 from by decide]
    norm_num
  have hdiv73 : machine_div (7:ℚ) 3 = 2 := by
    unfold machine_div
    rw [show Int.tdiv (7:ℚ).num (3:ℚ).num = 2 from by decide]
    norm_num
  refine ⟨Hxt, ?_, Hk0, ?_, Hfrxt, Hfrk, ?_, ?_, Hst, Hk2s, Hfdef⟩
  · rw [Hrem 1 (by decide) (by decide), hc1, hrem53]
  · rw [Hcsr, show oneRowState.cs.getD 0 0 = 7 from rfl, hrem73]
  · show coeffOf ((fresh_var_step oneRowState 0 0 3).e.getD
      oneRowState.e.length []) 1 = 1
    rw [Hdiv 1 (by decide) (by decide), hc1, hdiv53]
  · show (fresh_var_step oneRowState 0 0 3).cs.getD
      oneRowState.e.length 0 = 2
    rw [Hcsd, show oneRowState.cs.getD 0 0 = 7 from rfl, hdiv73]

theorem normalize_by_gcd_conflict_index (ext : Nat → Option Nat)
    (pOK : Bool) (ents : List Ent) (i : Nat) (hlt : i < ents.length)
    (hok : ∀ j, j < i → (normalize_e_by_gcd ext pOK
        (ents.getD j ([], [], 0)).1 (ents.getD j ([], [], 0)).2.1
        (ents.getD j ([], [], 0)).2.2).ok = true)
    (hfail : (normalize_e_by_gcd ext pOK (ents.getD i ([], [], 0)).1
        (ents.getD i ([], [], 0)).2.1 (ents.getD i ([], [], 0)).2.2).ok
        = false) :
    (normalize_by_gcd ext pOK ents).2 = some (i,
      (normalize_e_by_gcd ext pOK (ents.getD i ([], [], 0)).1
        (ents.getD i ([], [], 0)).2.1
        (ents.getD i ([], [], 0)).2.2).cut) := by
  induction ents generalizing i with
  | nil => simp at hlt
  | cons ent rest ih =>
    cases i with
    | zero =>
      have hf : (normalize_e_by_gcd ext pOK ent.1 ent.2.1 ent.2.2).ok
          = false := hfail
      show (normalize_by_gcd ext pOK (ent :: rest)).2 = _
      unfold normalize_by_gcd
      simp only [hf, Bool.false_eq_true, if_false]
      rfl
    | succ j =>
      have h0 : (normalize_e_by_gcd ext pOK ent.1 ent.2.1 ent.2.2).ok
          = true := hok 0 (Nat.succ_pos j)
      have hrec := ih j (by simpa using Nat.lt_of_succ_lt_succ hlt)
        (fun m hm => hok (m + 1) (by omega)) hfail
      show (normalize_by_gcd ext pOK (ent :: rest)).2 = _
      unfold normalize_by_gcd
      simp only [h0, if_true]
      rw [hrec]
      rfl

/-- C2: Normalize-by-GCD.  With g the gcd of the absolute values of the
E-coefficients of the row: g ∈ \x7b0, 1\x7d is a no-op success; for g > 1
with q = c/g integral, every coefficient of the E-row and of the L-row is
divided by g, the constant becomes q, and the row succeeds; for q
non-integral the row fails leaving its data unchanged, and the driver over
the F-rows records the first failing row's position as the conflicting
row. -/
theorem C2_normalize_by_gcd_cases (ext : Nat → Option Nat) (pOK : Bool)
    (e l : Row) (c : ℚ) :
    (gcd_of_coeffs e = 0 ∨ gcd_of_coeffs e = 1 →
      normalize_e_by_gcd ext pOK e l c = ⟨e, l, c, true, none⟩)
  ∧ (¬(gcd_of_coeffs e = 0 ∨ gcd_of_coeffs e = 1) →
     (c / gcd_of_coeffs e).den = 1 →
      (normalize_e_by_gcd ext pOK e l c).ok = true
    ∧ (normalize_e_by_gcd ext pOK e l c).c = c / gcd_of_coeffs e
    ∧ (∀ j, coeffOf (normalize_e_by_gcd ext pOK e l c).e j =
        coeffOf e j / gcd_of_coeffs e)
    ∧ (∀ j, coeffOf (normalize_e_by_gcd ext pOK e l c).l j =
        coeffOf l j / gcd_of_coeffs e))
  ∧ (¬(gcd_of_coeffs e = 0 ∨ gcd_of_coeffs e = 1) →
     (c / gcd_of_coeffs e).den ≠ 1 →
      (normalize_e_by_gcd ext pOK e l c).ok = false
    ∧ (normalize_e_by_gcd ext pOK e l c).e = e
    ∧ (normalize_e_by_gcd ext pOK e l c).l = l
    ∧ (normalize_e_by_gcd ext pOK e l c).c = c)
  ∧ (∀ ents i, i < ents.length →
      (∀ j, j < i → (normalize_e_by_gcd ext pOK
          (ents.getD j ([], [], 0)).1 (ents.getD j ([], [], 0)).2.1
          (ents.getD j ([], [], 0)).2.2).ok = true) →
      (normalize_e_by_gcd ext pOK (ents.getD i ([], [], 0)).1
          (ents.getD i ([], [], 0)).2.1
          (ents.getD i ([], [], 0)).2.2).ok = false →
      (normalize_by_gcd ext pOK ents).2 = some (i,
        (normalize_e_by_gcd ext pOK (ents.getD i ([], [], 0)).1
          (ents.getD i ([], [], 0)).2.1
          (ents.getD i ([], [], 0)).2.2).cut)) := by
  refine ⟨?_, ?_, ?_, ?_⟩
  · intro hg
    exact normalize_e_by_gcd_noop ext pOK e l c hg
  · intro hg hden
    rw [normalize_e_by_gcd_divide ext pOK e l c hg hden]
    refine ⟨rfl, rfl, ?_, ?_⟩
    · intro j
      exact coeffOf_map_div e (gcd_of_coeffs e) j
    · intro j
      exact coeffOf_map_div l (gcd_of_coeffs e) j
  · intro hg hden
    rw [normalize_e_by_gcd_conflict ext pOK e l c hg hden]
    exact ⟨rfl, rfl, rfl, rfl⟩
  · intro ents i hlt hok hfail
    exact normalize_by_gcd_conflict_index ext pOK ents i hlt hok hfail

theorem C2_normalize_by_gcd_cases_witness :
    (normalize_e_by_gcd (fun j => some j) false
      [((0 : Nat), (2 : ℚ)), (1, 4)] [(0, 1)] 4).ok = true ∧
    coeffOf (normalize_e_by_gcd (fun j => some j) false
      [((0 : Nat), (2 : ℚ)), (1, 4)] [(0, 1)] 4).e 1 = 2 ∧
    (normalize_e_by_gcd (fun j => some j) false
      [((0 : Nat), (2 : ℚ)), (1, 4)] [(0, 1)] 3).ok = false ∧
    (normalize_by_gcd (fun j => some j) false
      [([((0 : Nat), (2 : ℚ)), (1, 4)], [(0, 1)], 4),
       ([((0 : Nat), (2 : ℚ)), (1, 4)], [(0, 1)], 3)]).2 =
      some (1, (normalize_e_by_gcd (fun j => some j) false
        [((0 : Nat), (2 : ℚ)), (1, 4)] [(0, 1)] 3).cut) := by
  have hg2 : gcd_of_coeffs [((0 : Nat), (2 : ℚ)), (1, 4)] = 2 := by decide
  have hg : ¬(gcd_of_coeffs [((0 : Nat), (2 : ℚ)), (1, 4)] = 0 ∨
      gcd_of_coeffs [((0 : Nat), (2 : ℚ)), (1, 4)] = 1) := by
    rw [hg2]
    decide
  have hden4 : ((4 : ℚ) / gcd_of_coeffs
      [((0 : Nat), (2 : ℚ)), (1, 4)]).den = 1 := by
    rw [hg2]
    norm_num
  have hden3 : ((3 : ℚ) / gcd_of_coeffs
      [((0 : Nat), (2 : ℚ)), (1, 4)]).den ≠ 1 := by
    rw [hg2]
    norm_num
  obtain ⟨_, Hdiv, _, _⟩ := C2_normalize_by_gcd_cases (fun j => some j)
    false [((0 : Nat), (2 : ℚ)), (1, 4)] [(0, 1)] 4
  obtain ⟨_, _, Hfail, Hdrv⟩ := C2_normalize_by_gcd_cases
    (fun j => some j) false [((0 : Nat), (2 : ℚ)), (1, 4)] [(0, 1)] 3
  have hok4 := (Hdiv hg hden4).1
  have hcoef := (Hdiv hg hden4).2.2.1 1
  have hfail3 := (Hfail hg hden3).1
  refine ⟨hok4, ?_, hfail3, ?_⟩
  · rw [hcoef, show coeffOf [((0 : Nat), (2 : ℚ)), (1, 4)] 1 = 4 from by
      simp [coeffOf_cons, coeffOf_nil], hg2]
    norm_num
  · refine Hdrv [([((0 : Nat), (2 : ℚ)), (1, 4)], [(0, 1)], 4),
      ([((0 : Nat), (2 : ℚ)), (1, 4)], [(0, 1)], 3)] 1 (by decide) ?_ ?_
    · intro j hj
      have hj0 : j = 0 := by omega
      subst hj0
      exact hok4
    · exact hfail3

/-- C10: Conflict atomicity of normalization.  When normalize_e_by_gcd
fails on row i (non-trivial gcd, non-integral c/g), the state is returned
exactly as it was: E-row i, L-row i and the constant are unchanged, the
entry invariant of the conflicting row persists, and the explanation that
explain later extracts from the L-row is computed on the unmodified
row. -/
theorem C10_conflict_atomicity (host : Host) (pOK : Bool) (s : DState)
    (i : Nat)
    (hfail : (normalize_e_by_gcd s.ext pOK (s.e.getD i [])
      (s.l.getD i []) (s.cs.getD i 0)).ok = false) :
    (normalizeRow pOK s i).1 = s
  ∧ (normalizeRow pOK s i).2.1 = false
  ∧ (normalizeRow pOK s i).1.e.getD i [] = s.e.getD i []
  ∧ (normalizeRow pOK s i).1.l.getD i [] = s.l.getD i []
  ∧ (normalizeRow pOK s i).1.cs.getD i 0 = s.cs.getD i 0
  ∧ (entry_invariant host s i →
      entry_invariant host (normalizeRow pOK s i).1 i)
  ∧ conflictExplanation host (normalizeRow pOK s i).1 i =
      conflictExplanation host s i := by
  have h := normalizeRow_eq_of_fail pOK s i _ rfl hfail
  rw [h]
  exact ⟨rfl, rfl, rfl, rfl, rfl, fun hi => hi, rfl⟩

theorem C10_conflict_atomicity_witness :
    (normalizeRow true gcdConflictState 0).1 = gcdConflictState ∧
    (normalizeRow true gcdConflictState 0).2.1 = false ∧
    conflictExplanation hostAllFixed
        (normalizeRow true gcdConflictState 0).1 0 =
      conflictExplanation hostAllFixed gcdConflictState 0 := by
  have hg2 : gcd_of_coeffs [((0 : Nat), (2 : ℚ)), (1, 4)] = 2 := by
    decide
  have hg : ¬(gcd_of_coeffs [((0 : Nat), (2 : ℚ)), (1, 4)] = 0 ∨
      gcd_of_coeffs [((0 : Nat), (2 : ℚ)), (1, 4)] = 1) := by
    rw [hg2]
    decide
  have hden : ((3 : ℚ) / gcd_of_coeffs
      [((0 : Nat), (2 : ℚ)), (1, 4)]).den ≠ 1 := by
    rw [hg2]
    norm_num
  have hfail : (normalize_e_by_gcd gcdConflictState.ext true
      (gcdConflictState.e.getD 0 []) (gcdConflictState.l.getD 0 [])
      (gcdConflictState.cs.getD 0 0)).ok = false := by
    show (normalize_e_by_gcd gcdConflictState.ext true
      [((0 : Nat), (2 : ℚ)), (1, 4)] [((0 : Nat), (1 : ℚ))] 3).ok = false
    rw [normalize_e_by_gcd_conflict _ _ _ _ _ hg hden]
  have H := C10_conflict_atomicity hostAllFixed true gcdConflictState 0
    hfail
  exact ⟨H.1, H.2.1, H.2.2.2.2.2.2⟩

/-- C3: Tightening for a non-trivial gcd.  For one bound kind of a host
column: with no host bound nothing happens; with a host bound rs such
that rs' = (rs − m_c)/g is integral nothing happens; when rs' is
non-integral the tightener pushes the bound g·⌊rs'⌋ + m_c for an upper
bound and g·⌈rs'⌉ + m_c for a lower bound, and it harvests the host's
explanation and returns conflict exactly when the host thereupon reports
infeasibility. -/
theorem C3_tightening (g mc : ℚ) (upper : Bool) (st : LpStatus) :
    tighten_bounds_for_non_trivial_gcd g mc none upper st =
      ⟨none, false, false⟩
  ∧ (∀ rs : ℚ, ((rs - mc) / g).den = 1 →
      tighten_bounds_for_non_trivial_gcd g mc (some rs) upper st =
        ⟨none, false, false⟩)
  ∧ (∀ rs : ℚ, ((rs - mc) / g).den ≠ 1 →
      (tighten_bounds_for_non_trivial_gcd g mc (some rs) upper
          st).pushed =
        some (upper, g * (if upper then (⌊(rs - mc) / g⌋ : ℚ)
          else (⌈(rs - mc) / g⌉ : ℚ)) + mc)
    ∧ ((tighten_bounds_for_non_trivial_gcd g mc (some rs) upper
          st).conflict = true ↔ st = LpStatus.infeasible)
    ∧ (tighten_bounds_for_non_trivial_gcd g mc (some rs) upper
          st).harvested =
        (tighten_bounds_for_non_trivial_gcd g mc (some rs) upper
          st).conflict) := by
  refine ⟨rfl, ?_, ?_⟩
  · intro rs hden
    unfold tighten_bounds_for_non_trivial_gcd
    simp only [hden, if_true]
  · intro rs hden
    unfold tighten_bounds_for_non_trivial_gcd tighten_bound_kind
    simp only [hden, Bool.false_eq_true, if_false]
    cases st <;> simp

theorem C3_tightening_witness :
    (tighten_bounds_for_non_trivial_gcd 5 0 (some 9) true
        LpStatus.infeasible).pushed = some (true, 5) ∧
    (tighten_bounds_for_non_trivial_gcd 5 0 (some 9) true
        LpStatus.infeasible).conflict = true ∧
    (tighten_bounds_for_non_trivial_gcd 5 0 (some 9) true
        LpStatus.infeasible).harvested = true := by
  have hden : (((9 : ℚ) - 0) / 5).den ≠ 1 := by norm_num
  have H := (C3_tightening 5 0 true LpStatus.infeasible).2.2 9 hden
  have hconf : (tighten_bounds_for_non_trivial_gcd 5 0 (some 9) true
      LpStatus.infeasible).conflict = true := H.2.1.mpr rfl
  refine ⟨?_, hconf, ?_⟩
  · rw [H.1, if_pos rfl]
    norm_num
  · rw [H.2.2, hconf]

theorem process_f_branch (ext : Nat → Option Nat) (pOK : Bool)
    (rw : List Ent → List Ent) (fuel : Nat) (ents ents' : List Ent)
    (i : Nat) (cut : Cut)
    (h : normalize_by_gcd ext pOK ents = (ents', some (i, some cut))) :
    process_f ext pOK rw (fuel + 1) ents = (LiaMove.branch, some cut) := by
  cases ents with
  | nil =>
    rw [show normalize_by_gcd ext pOK [] = ([], none) from rfl] at h
    exact absurd (congrArg Prod.snd h).symm (by simp)
  | cons ent rest =>
    show (match normalize_by_gcd ext pOK (ent :: rest) with
      | (ents', none) => process_f ext pOK rw fuel (rw ents')
      | (_, some (_, some cut)) => (LiaMove.branch, some cut)
      | (_, some (_, none)) => (LiaMove.conflict, none)) = _
    rw [h]

theorem process_f_conflict (ext : Nat → Option Nat) (pOK : Bool)
    (rw : List Ent → List Ent) (fuel : Nat) (ents ents' : List Ent)
    (i : Nat)
    (h : normalize_by_gcd ext pOK ents = (ents', some (i, none))) :
    process_f ext pOK rw (fuel + 1) ents = (LiaMove.conflict, none) := by
  cases ents with
  | nil =>
    rw [show normalize_by_gcd ext pOK [] = ([], none) from rfl] at h
    exact absurd (congrArg Prod.snd h).symm (by simp)
  | cons ent rest =>
    show (match normalize_by_gcd ext pOK (ent :: rest) with
      | (ents', none) => process_f ext pOK rw fuel (rw ents')
      | (_, some (_, some cut)) => (LiaMove.branch, some cut)
      | (_, some (_, none)) => (LiaMove.conflict, none)) = _
    rw [h]

/-- C6: Cut from proof.  In the gcd-conflict case of a row (non-trivial
gcd g not dividing the constant): when the row has no fresh variable and
the cut-from-proof period has elapsed, the prepared cut is the term with
coefficients E[i][j]/g over the external counterparts of the row's
variables, offset ⌊−c/g⌋, is_upper = true, and process_f returns branch
publishing exactly that cut; in every other conflict case no cut is
prepared and process_f returns conflict; check passes a branch or a
conflict verdict of the processing phase through unchanged. -/
theorem C6_cut_from_proof (ext : Nat → Option Nat) (e l : Row) (c : ℚ)
    (hg : ¬(gcd_of_coeffs e = 0 ∨ gcd_of_coeffs e = 1))
    (hden : (c / gcd_of_coeffs e).den ≠ 1) :
    (has_fresh_var ext e = false →
      (normalize_e_by_gcd ext true e l c).cut =
        some ⟨e.map (fun p => ((ext p.1).getD 0,
            p.2 / gcd_of_coeffs e)),
          ⌊-(c / gcd_of_coeffs e)⌋, true⟩)
  ∧ (∀ pOK : Bool, pOK = false ∨ has_fresh_var ext e = true →
      (normalize_e_by_gcd ext pOK e l c).cut = none)
  ∧ (∀ (pOK : Bool) (rw : List Ent → List Ent) (fuel : Nat)
      (ents ents' : List Ent) (i : Nat) (cut : Cut),
      normalize_by_gcd ext pOK ents = (ents', some (i, some cut)) →
      process_f ext pOK rw (fuel + 1) ents = (LiaMove.branch, some cut))
  ∧ (∀ (pOK : Bool) (rw : List Ent → List Ent) (fuel : Nat)
      (ents ents' : List Ent) (i : Nat),
      normalize_by_gcd ext pOK ents = (ents', some (i, none)) →
      process_f ext pOK rw (fuel + 1) ents = (LiaMove.conflict, none))
  ∧ (∀ (cutO : Option Cut) (bu : LiaMove) (m : Nat),
      check_move (LiaMove.branch, cutO) bu m = ((LiaMove.branch, cutO), m)
    ∧ check_move (LiaMove.conflict, cutO) bu m =
        ((LiaMove.conflict, cutO), m)) := by
  refine ⟨?_, ?_, ?_, ?_, ?_⟩
  · intro hfv
    rw [normalize_e_by_gcd_conflict ext true e l c hg hden]
    show (if true && !has_fresh_var ext e then _ else none) = _
    rw [hfv]
    rfl
  · intro pOK hcase
    rw [normalize_e_by_gcd_conflict ext pOK e l c hg hden]
    show (if pOK && !has_fresh_var ext e then _ else none) = none
    rcases hcase with h | h
    · rw [h]
      rfl
    · rw [h]
      simp
  · intro pOK rw fuel ents ents' i cut h
    exact process_f_branch ext pOK rw fuel ents ents' i cut h
  · intro pOK rw fuel ents ents' i h
    exact process_f_conflict ext pOK rw fuel ents ents' i h
  · intro cutO bu m
    constructor
    · unfold check_move
      rw [if_pos (Or.inl rfl)]
    · unfold check_move
      rw [if_pos (Or.inr rfl)]

theorem C6_cut_from_proof_witness :
    (normalize_e_by_gcd (fun j => if j < 2 then some j else none) true
      [((0 : Nat), (2 : ℚ)), (1, 4)] [(0, 1)] 3).cut =
      some ⟨[((0 : Nat), (1 : ℚ)), (1, 2)], -2, true⟩ := by
  have hg2 : gcd_of_coeffs [((0 : Nat), (2 : ℚ)), (1, 4)] = 2 := by
    decide
  have hg : ¬(gcd_of_coeffs [((0 : Nat), (2 : ℚ)), (1, 4)] = 0 ∨
      gcd_of_coeffs [((0 : Nat), (2 : ℚ)), (1, 4)] = 1) := by
    rw [hg2]
    decide
  have hden : ((3 : ℚ) / gcd_of_coeffs
      [((0 : Nat), (2 : ℚ)), (1, 4)]).den ≠ 1 := by
    rw [hg2]
    norm_num
  have H := (C6_cut_from_proof (fun j => if j < 2 then some j else none)
    [((0 : Nat), (2 : ℚ)), (1, 4)] [(0, 1)] 3 hg hden).1 (by decide)
  rw [H, hg2]
  norm_num

theorem fmacGo_cons (p : Nat × ℚ) (rest : Row) (ahk : ℚ) (k : Nat)
    (sgn : Int) :
    fmacGo (p :: rest) ahk k sgn =
      if |p.2| < ahk ∨ (|p.2| = ahk ∧ p.1 < k) then
        (if |p.2| = 1 then (|p.2|, p.1, if 0 < p.2 then (1 : Int) else -1)
         else fmacGo rest |p.2| p.1 (if 0 < p.2 then (1 : Int) else -1))
      else fmacGo rest ahk k sgn := rfl

theorem find_minimal_abs_coeff_cons (p : Nat × ℚ) (rest : Row) :
    find_minimal_abs_coeff (p :: rest) =
      if |p.2| = 1 then (|p.2|, p.1, if 0 < p.2 then (1 : Int) else -1)
      else fmacGo rest |p.2| p.1 (if 0 < p.2 then (1 : Int) else -1) :=
  rfl

theorem one_le_abs_of_den_one (q : ℚ) (h0 : q ≠ 0) (hden : q.den = 1) :
    1 ≤ |q| := by
  have hnum : (q.num : ℚ) = q := (Rat.den_eq_one_iff q).mp hden
  have hnum0 : q.num ≠ 0 := by
    intro h
    apply h0
    rw [← hnum, h]
    simp
  rw [← hnum, ← Int.cast_abs]
  exact_mod_cast Int.one_le_abs hnum0

theorem fmacGo_spec (rest : Row) : ∀ (ahk : ℚ) (k : Nat) (sgn : Int),
    1 ≤ ahk → (∀ p ∈ rest, 1 ≤ |p.2|) →
    ((fmacGo rest ahk k sgn).1 ≤ ahk
      ∧ ∀ p ∈ rest, (fmacGo rest ahk k sgn).1 ≤ |p.2|)
  ∧ (((fmacGo rest ahk k sgn).1 = ahk ∧ (fmacGo rest ahk k sgn).2.1 = k)
      ∨ ∃ p ∈ rest, (fmacGo rest ahk k sgn).1 = |p.2| ∧
          (fmacGo rest ahk k sgn).2.1 = p.1)
  ∧ ((fmacGo rest ahk k sgn).1 ≠ 1 →
      (ahk = (fmacGo rest ahk k sgn).1 → (fmacGo rest ahk k sgn).2.1 ≤ k)
      ∧ ∀ p ∈ rest, |p.2| = (fmacGo rest ahk k sgn).1 →
          (fmacGo rest ahk k sgn).2.1 ≤ p.1)
  ∧ (ahk ≠ 1 → (fmacGo rest ahk k sgn).1 = 1 →
      ∃ q, firstUnit rest = some q ∧
        (fmacGo rest ahk k sgn).2.1 = q.1) := by
  induction rest with
  | nil =>
    intro ahk k sgn h1 _
    refine ⟨⟨le_refl _, by simp⟩, Or.inl ⟨rfl, rfl⟩, ?_, ?_⟩
    · intro _
      exact ⟨fun _ => le_refl k, by simp⟩
    · intro hne h1'
      exact absurd h1' hne
  | cons p rest ih =>
    intro ahk k sgn h1 hint
    have hintr : ∀ q ∈ rest, 1 ≤ |q.2| :=
      fun q hq => hint q (List.mem_cons_of_mem p hq)
    have hp1 : 1 ≤ |p.2| := hint p (List.mem_cons_self p rest)
    rw [fmacGo_cons]
    by_cases hrep : |p.2| < ahk ∨ (|p.2| = ahk ∧ p.1 < k)
    · rw [if_pos hrep]
      by_cases hbr : |p.2| = 1
      · rw [if_pos hbr]
        refine ⟨⟨?_, ?_⟩, ?_, ?_, ?_⟩
        · rcases hrep with h | ⟨h, _⟩
          · exact le_of_lt h
          · exact le_of_eq h
        · intro q hq
          rcases List.mem_cons.mp hq with rfl | hq'
          · exact le_refl _
          · rw [show ((|p.2|, p.1, if 0 < p.2 then (1 : Int) else -1)).1
              = |p.2| from rfl, hbr]
            exact hintr q hq'
        · exact Or.inr ⟨p, List.mem_cons_self p rest, rfl, rfl⟩
        · intro hne
          exact absurd hbr hne
        · intro _ _
          refine ⟨p, ?_, rfl⟩
          unfold firstUnit
          rw [List.find?_cons_of_pos _ (by simp [hbr])]
      · rw [if_neg hbr]
        obtain ⟨⟨iA1, iA2⟩, iB, iC, iD⟩ :=
          ih |p.2| p.1 (if 0 < p.2 then (1 : Int) else -1) hp1 hintr
        refine ⟨⟨?_, ?_⟩, ?_, ?_, ?_⟩
        · rcases hrep with h | ⟨h, _⟩
          · exact le_trans iA1 (le_of_lt h)
          · exact le_trans iA1 (le_of_eq h)
        · intro q hq
          rcases List.mem_cons.mp hq with rfl | hq'
          · exact iA1
          · exact iA2 q hq'
        · rcases iB with ⟨hv, hk⟩ | ⟨q, hq, hv, hk⟩
          · exact Or.inr ⟨p, List.mem_cons_self p rest, hv, hk⟩
          · exact Or.inr ⟨q, List.mem_cons_of_mem p hq, hv, hk⟩
        · intro hne
          obtain ⟨iC1, iC2⟩ := iC hne
          refine ⟨?_, ?_⟩
          · intro hak
            rcases hrep with h | ⟨h, hpk⟩
            · exfalso
              have hlt := lt_of_le_of_lt iA1 h
              rw [← hak] at hlt
              exact lt_irrefl ahk hlt
            · exact le_trans (iC1 (h.trans hak)) (le_of_lt hpk)
          · intro q hq hv
            rcases List.mem_cons.mp hq with rfl | hq'
            · exact iC1 hv
            · exact iC2 q hq' hv
        · intro _ hres1
          obtain ⟨q, hfq, hid⟩ := iD hbr hres1
          refine ⟨q, ?_, hid⟩
          unfold firstUnit at hfq ⊢
          rw [List.find?_cons_of_neg _ (by simp [hbr])]
          exact hfq
    · rw [if_neg hrep]
      obtain ⟨⟨iA1, iA2⟩, iB, iC, iD⟩ := ih ahk k sgn h1 hintr
      push_neg at hrep
      obtain ⟨hge, himp⟩ := hrep
      refine ⟨⟨iA1, ?_⟩, ?_, ?_, ?_⟩
      · intro q hq
        rcases List.mem_cons.mp hq with rfl | hq'
        · exact le_trans iA1 hge
        · exact iA2 q hq'
      · rcases iB with ⟨hv, hk⟩ | ⟨q, hq, hv, hk⟩
        · exact Or.inl ⟨hv, hk⟩
        · exact Or.inr ⟨q, List.mem_cons_of_mem p hq, hv, hk⟩
      · intro hne
        obtain ⟨iC1, iC2⟩ := iC hne
        refine ⟨iC1, ?_⟩
        intro q hq hv
        rcases List.mem_cons.mp hq with rfl | hq'
        · have heq : ahk = (fmacGo rest ahk k sgn).1 :=
            le_antisymm (hv ▸ hge) iA1
          have hpk : |q.2| = ahk := by rw [hv, ← heq]
          exact le_trans (iC1 heq) (himp hpk)
        · exact iC2 q hq' hv
      · intro hahk hres1
        have hp2 : |p.2| ≠ 1 := by
          have h1lt : 1 < ahk := lt_of_le_of_ne h1 (Ne.symm hahk)
          exact ne_of_gt (lt_of_lt_of_le h1lt hge)
        obtain ⟨q, hfq, hid⟩ := iD hahk hres1
        refine ⟨q, ?_, hid⟩
        unfold firstUnit at hfq ⊢
        rw [List.find?_cons_of_neg _ (by simp [hp2])]
        exact hfq

/-- C7: Pivot selection.  In find_minimal_abs_coeff over an F-row of
nonzero integral coefficients: the returned absolute value is minimal over
the row and is attained at the returned variable; when the minimum is not
1 the returned variable is the smallest id among the cells attaining the
minimum; when the minimum is 1 the loop breaks early and the returned
variable is that of the first cell of absolute value 1 in storage order
(not necessarily the smallest tied id). -/
theorem C7_pivot_selection (r : Row) (hne : r ≠ [])
    (hint : ∀ p ∈ r, p.2 ≠ 0 ∧ p.2.den = 1) :
    (∀ p ∈ r, (find_minimal_abs_coeff r).1 ≤ |p.2|)
  ∧ (∃ p ∈ r, (find_minimal_abs_coeff r).1 = |p.2| ∧
      (find_minimal_abs_coeff r).2.1 = p.1)
  ∧ ((find_minimal_abs_coeff r).1 ≠ 1 →
      ∀ p ∈ r, |p.2| = (find_minimal_abs_coeff r).1 →
        (find_minimal_abs_coeff r).2.1 ≤ p.1)
  ∧ ((find_minimal_abs_coeff r).1 = 1 →
      ∃ q, firstUnit r = some q ∧
        (find_minimal_abs_coeff r).2.1 = q.1) := by
  have habs : ∀ p ∈ r, 1 ≤ |p.2| :=
    fun p hp => one_le_abs_of_den_one p.2 (hint p hp).1 (hint p hp).2
  cases r with
  | nil => exact absurd rfl hne
  | cons p rest =>
    have hp1 : 1 ≤ |p.2| := habs p (List.mem_cons_self p rest)
    have hintr : ∀ q ∈ rest, 1 ≤ |q.2| :=
      fun q hq => habs q (List.mem_cons_of_mem p hq)
    rw [find_minimal_abs_coeff_cons]
    by_cases hbr : |p.2| = 1
    · rw [if_pos hbr]
      refine ⟨?_, ?_, ?_, ?_⟩
      · intro q hq
        rcases List.mem_cons.mp hq with rfl | hq'
        · exact le_refl _
        · rw [show ((|p.2|, p.1, if 0 < p.2 then (1 : Int) else -1)).1
            = |p.2| from rfl, hbr]
          exact hintr q hq'
      · exact ⟨p, List.mem_cons_self p rest, rfl, rfl⟩
      · intro hne1
        exact absurd hbr hne1
      · intro _
        refine ⟨p, ?_, rfl⟩
        unfold firstUnit
        rw [List.find?_cons_of_pos _ (by simp [hbr])]
    · rw [if_neg hbr]
      obtain ⟨⟨iA1, iA2⟩, iB, iC, iD⟩ :=
        fmacGo_spec rest |p.2| p.1 (if 0 < p.2 then (1 : Int) else -1)
          hp1 hintr
      refine ⟨?_, ?_, ?_, ?_⟩
      · intro q hq
        rcases List.mem_cons.mp hq with rfl | hq'
        · exact iA1
        · exact iA2 q hq'
      · rcases iB with ⟨hv, hk⟩ | ⟨q, hq, hv, hk⟩
        · exact ⟨p, List.mem_cons_self p rest, hv, hk⟩
        · exact ⟨q, List.mem_cons_of_mem p hq, hv, hk⟩
      · intro hne1 q hq hv
        obtain ⟨iC1, iC2⟩ := iC hne1
        rcases List.mem_cons.mp hq with rfl | hq'
        · exact iC1 hv
        · exact iC2 q hq' hv
      · intro hres1
        obtain ⟨q, hfq, hid⟩ := iD hbr hres1
        refine ⟨q, ?_, hid⟩
        unfold firstUnit at hfq ⊢
        rw [List.find?_cons_of_neg _ (by simp [hbr])]
        exact hfq

theorem C7_counterexample : ¬pivotTiebreakClaim := by
  intro hcl
  have h := (hcl [((5 : Nat), (1 : ℚ)), (2, 1)] (by simp) (by decide)).2
    ((2 : Nat), (1 : ℚ)) (by simp) (by decide)
  exact absurd h (by decide)

theorem C7_pivot_selection_witness :
    (find_minimal_abs_coeff [((0 : Nat), (3 : ℚ)), (1, 5)]).1 ≤
      |(3 : ℚ)| ∧
    (find_minimal_abs_coeff [((0 : Nat), (3 : ℚ)), (1, 5)]).2.1 ≤ 0 := by
  have H := C7_pivot_selection [((0 : Nat), (3 : ℚ)), (1, 5)] (by simp)
    (by decide)
  exact ⟨H.1 ((0 : Nat), (3 : ℚ)) (List.mem_cons_self _ _),
    H.2.2.1 (by decide) ((0 : Nat), (3 : ℚ)) (List.mem_cons_self _ _)
      (by decide)⟩

theorem C8_counterexample : ¬branchSideClaim := by
  intro hcl
  have h := hcl ⟨0, 3, false, false⟩
  rw [show add_var_bound_for_branch ⟨0, 3, false, false⟩ =
    (0, BoundKind.ge, (3 : ℚ) + 1) from rfl] at h
  have h2 := congrArg (fun t => t.2.2) h
  simp only [] at h2
  norm_num at h2

/-- C8: Branch side semantics.  A branch carries rs = ⌊value(j)⌋; a left
branch imposes x_j ≤ rs on the host, while a right branch imposes
x_j ≥ rs + 1 (not x_j ≥ rs: add_var_bound_for_branch pushes
GE at rs + 1). -/
theorem C8_branch_semantics :
    (∀ b : Branch, b.left = true →
      add_var_bound_for_branch b = (b.j, BoundKind.le, b.rs))
  ∧ (∀ b : Branch, b.left = false →
      add_var_bound_for_branch b = (b.j, BoundKind.ge, b.rs + 1))
  ∧ (∀ v : ℚ, create_branch_rs v = (⌊v⌋ : ℚ)) := by
  refine ⟨?_, ?_, fun v => rfl⟩
  · intro b hb
    unfold add_var_bound_for_branch
    rw [hb]
    rfl
  · intro b hb
    unfold add_var_bound_for_branch
    rw [hb]
    rfl

theorem C8_branch_semantics_witness :
    add_var_bound_for_branch ⟨0, 3, true, false⟩ =
      (0, BoundKind.le, 3) ∧
    add_var_bound_for_branch ⟨1, 3, false, false⟩ =
      (1, BoundKind.ge, 3 + 1) ∧
    create_branch_rs (7 / 2) = 3 := by
  have H := C8_branch_semantics
  refine ⟨H.1 ⟨0, 3, true, false⟩ rfl, H.2.1 ⟨1, 3, false, false⟩ rfl, ?_⟩
  rw [H.2.2 (7 / 2)]
  norm_num

theorem branchingLoop_le (oracle : Nat → IterOutcome) (m : Nat) :
    ∀ n, (branchingLoop oracle m n).2 ≤ max n (m - 1) := by
  have key : ∀ fuel n, m - n ≤ fuel →
      (branchingLoop oracle m n).2 ≤ max n (m - 1) := by
    intro fuel
    induction fuel with
    | zero =>
      intro n hn
      rw [branchingLoop, if_neg (by omega)]
      exact le_max_left n (m - 1)
    | succ fuel ih =>
      intro n hn
      rw [branchingLoop]
      by_cases h : n + 1 < m
      · rw [if_pos h]
        cases ho : oracle (n + 1) with
        | sat =>
          exact le_trans (show n + 1 ≤ m - 1 by omega)
            (le_max_right n (m - 1))
        | conflict =>
          exact le_trans (show n + 1 ≤ m - 1 by omega)
            (le_max_right n (m - 1))
        | cancelled =>
          exact le_trans (show n + 1 ≤ m - 1 by omega)
            (le_max_right n (m - 1))
        | next =>
          have hrec := ih (n + 1) (by omega)
          exact le_trans hrec (Nat.max_le.mpr
            ⟨le_trans (by omega) (le_max_right n (m - 1)),
              le_max_right n (m - 1)⟩)
      · rw [if_neg h]
        exact le_max_left n (m - 1)
  intro n
  exact key (m - n) n (le_refl _)

theorem branchingLoop_all_next (oracle : Nat → IterOutcome) (m : Nat)
    (hall : ∀ i, oracle i = IterOutcome.next) :
    ∀ n, (branchingLoop oracle m n).1 = LiaMove.undef := by
  have key : ∀ fuel n, m - n ≤ fuel →
      (branchingLoop oracle m n).1 = LiaMove.undef := by
    intro fuel
    induction fuel with
    | zero =>
      intro n hn
      rw [branchingLoop, if_neg (by omega)]
    | succ fuel ih =>
      intro n hn
      rw [branchingLoop]
      by_cases h : n + 1 < m
      · rw [if_pos h, hall (n + 1)]
        exact ih (n + 1) (by omega)
      · rw [if_neg h]
  intro n
  exact key (m - n) n (le_refl _)

/-- C9: Iteration budget.  The branch-and-bound loop of one check performs
at most max_iter iterations: the initial budget is 100; the budget update
applied after an inconclusive check halves it with a floor of 5, and check
then returns undef; when the oracle never ends the loop early the loop
exhausts its budget and returns undef. -/
theorem C9_iteration_budget :
    m_max_number_of_iterations = 100
  ∧ (∀ (oracle : Nat → IterOutcome) (m : Nat),
      (branching_on_undef oracle m).2 ≤ m)
  ∧ (∀ m : Nat, halveBudget m = max 5 (m / 2) ∧ 5 ≤ halveBudget m)
  ∧ (∀ (cutO : Option Cut) (m : Nat),
      check_move (LiaMove.undef, cutO) LiaMove.undef m =
        ((LiaMove.undef, none), halveBudget m))
  ∧ (∀ (oracle : Nat → IterOutcome) (m : Nat),
      (∀ i, oracle i = IterOutcome.next) →
      (branching_on_undef oracle m).1 = LiaMove.undef) := by
  refine ⟨rfl, ?_, ?_, ?_, ?_⟩
  · intro oracle m
    have h := branchingLoop_le oracle m 0
    have : max 0 (m - 1) ≤ m := by
      rw [Nat.max_le]
      omega
    exact le_trans h this
  · intro m
    exact ⟨rfl, le_max_left 5 (m / 2)⟩
  · intro cutO m
    unfold check_move
    rw [if_neg (by simp), if_neg (by simp)]
  · intro oracle m hall
    exact branchingLoop_all_next oracle m hall 0

theorem C9_iteration_budget_witness :
    (branching_on_undef (fun _ => IterOutcome.next) 7).2 ≤ 7 ∧
    (branching_on_undef (fun _ => IterOutcome.next) 7).1 =
      LiaMove.undef ∧
    halveBudget 7 = 5 := by
  have H := C9_iteration_budget
  exact ⟨H.2.1 (fun _ => IterOutcome.next) 7,
    H.2.2.2.2 (fun _ => IterOutcome.next) 7 (fun i => rfl), by decide⟩

end DioSpec
